import Mathlib

/-!
Verification of the three data-structure engines of the repository
`Advanced_Data_Structures`: the Fenwick tree (`src/fenwick_tree.py`),
the trie (`src/trie.py`) and the skip list (`src/skip_list.py`).

Each Python class is shallowly embedded as a Lean structure with pure
state-passing operations; Python `while` loops with non-structural
termination are either proved terminating via the loop variable's
progress, or (where the source can genuinely diverge) modelled with
explicit fuel.
-/

/-! ### Fenwick tree: the lowest-set-bit function.

Python computes `index & (-index)` on arbitrary-precision two's-complement
integers.  For `index > 0` this is the lowest set bit of `index`; for
`index = 0` it is `0`.  `lowbit` is that function on `Nat`. -/

def lowbit (n : Nat) : Nat :=
  if h : n = 0 then 0
  else if n % 2 = 1 then 1
  else 2 * lowbit (n / 2)
termination_by n
decreasing_by exact Nat.div_lt_self (Nat.pos_of_ne_zero h) one_lt_two

theorem lowbit_zero : lowbit 0 = 0 := by
  rw [lowbit]; simp

theorem lowbit_odd (n : Nat) (h : n % 2 = 1) : lowbit n = 1 := by
  rw [lowbit]
  have : n ≠ 0 := by omega
  simp [this, h]

theorem lowbit_two_mul (m : Nat) : lowbit (2 * m) = 2 * lowbit m := by
  rcases Nat.eq_zero_or_pos m with hm | hm
  · simp [hm, lowbit_zero]
  · rw [lowbit]
    have h0 : 2 * m ≠ 0 := by omega
    have h1 : ¬ (2 * m) % 2 = 1 := by omega
    simp [h0, h1, Nat.mul_div_cancel_left m (by norm_num : 0 < 2)]

theorem lowbit_pos (n : Nat) (h : 1 ≤ n) : 1 ≤ lowbit n := by
  induction n using Nat.strong_induction_on with
  | _ n ih =>
    rcases Nat.even_or_odd n with he | ho
    · obtain ⟨m, hm⟩ := he
      have hmn : m ≥ 1 := by omega
      have : lowbit n = 2 * lowbit m := by
        rw [hm]; rw [show m + m = 2 * m by ring, lowbit_two_mul]
      have := ih m (by omega) hmn
      omega
    · have : n % 2 = 1 := Nat.odd_iff.mp ho
      rw [lowbit_odd n this]

theorem lowbit_le (n : Nat) : lowbit n ≤ n := by
  induction n using Nat.strong_induction_on with
  | _ n ih =>
    rcases Nat.eq_zero_or_pos n with h0 | h0
    · simp [h0, lowbit_zero]
    rcases Nat.even_or_odd n with he | ho
    · obtain ⟨m, hm⟩ := he
      have : lowbit n = 2 * lowbit m := by
        rw [hm]; rw [show m + m = 2 * m by ring, lowbit_two_mul]
      have := ih m (by omega)
      omega
    · have : n % 2 = 1 := Nat.odd_iff.mp ho
      rw [lowbit_odd n this]; omega

/-- Adding the lowest set bit at least doubles it: the lowest set bit of
`n + lowbit n` is at least `2 * lowbit n`. -/
theorem lowbit_add_self (n : Nat) (h : 1 ≤ n) :
    2 * lowbit n ≤ lowbit (n + lowbit n) := by
  induction n using Nat.strong_induction_on with
  | _ n ih =>
    rcases Nat.even_or_odd n with he | ho
    · obtain ⟨m, hm⟩ := he
      have hn2 : n = 2 * m := by omega
      have hmn : m ≥ 1 := by omega
      have e1 : lowbit n = 2 * lowbit m := by rw [hn2, lowbit_two_mul]
      have e2 : n + lowbit n = 2 * (m + lowbit m) := by omega
      have e3 : lowbit (n + lowbit n) = 2 * lowbit (m + lowbit m) := by
        rw [e2, lowbit_two_mul]
      have := ih m (by omega) hmn
      omega
    · have ho1 : n % 2 = 1 := Nat.odd_iff.mp ho
      have e1 : lowbit n = 1 := lowbit_odd n ho1
      rw [e1]
      have he : n + 1 = 2 * ((n + 1) / 2) := by omega
      have e2 : lowbit (n + 1) = 2 * lowbit ((n + 1) / 2) := by
        rw [he, lowbit_two_mul]
        rw [Nat.mul_div_cancel_left _ (by norm_num : 0 < 2)]
      have : 1 ≤ lowbit ((n + 1) / 2) := lowbit_pos _ (by omega)
      omega

/-- If `m` lies strictly between `k - lowbit k` and `k`, then the Fenwick
update step from `m` does not overshoot `k`. -/
theorem lowbit_step_le (k m : Nat) (h1 : k - lowbit k < m) (h2 : m < k) :
    m + lowbit m ≤ k := by
  induction k using Nat.strong_induction_on generalizing m with
  | _ k ih =>
    rcases Nat.even_or_odd k with he | ho
    · obtain ⟨k2, hk2⟩ := he
      have hk : k = 2 * k2 := by omega
      have ek : lowbit k = 2 * lowbit k2 := by rw [hk, lowbit_two_mul]
      rcases Nat.even_or_odd m with hme | hmo
      · obtain ⟨m2, hm2⟩ := hme
        have hm : m = 2 * m2 := by omega
        have em : lowbit m = 2 * lowbit m2 := by rw [hm, lowbit_two_mul]
        have hlk2 : lowbit k2 ≤ k2 := lowbit_le k2
        have g1 : k2 - lowbit k2 < m2 := by omega
        have g2 : m2 < k2 := by omega
        have := ih k2 (by omega) m2 g1 g2
        omega
      · have : lowbit m = 1 := lowbit_odd m (Nat.odd_iff.mp hmo)
        omega
    · have : lowbit k = 1 := lowbit_odd k (Nat.odd_iff.mp ho)
      omega

/-- If `k - lowbit k < m ≤ k` then in fact `k - lowbit k ≤ m - lowbit m`:
the quantity `k - lowbit k` is stable along the Fenwick update chain. -/
theorem lowbit_sub_mono (k m : Nat) (h1 : m ≤ k) (h2 : k - lowbit k < m) :
    k - lowbit k ≤ m - lowbit m := by
  induction k using Nat.strong_induction_on generalizing m with
  | _ k ih =>
    rcases Nat.even_or_odd k with he | ho
    · obtain ⟨k2, hk2⟩ := he
      have hk : k = 2 * k2 := by omega
      have ek : lowbit k = 2 * lowbit k2 := by rw [hk, lowbit_two_mul]
      rcases Nat.even_or_odd m with hme | hmo
      · obtain ⟨m2, hm2⟩ := hme
        have hm : m = 2 * m2 := by omega
        have em : lowbit m = 2 * lowbit m2 := by rw [hm, lowbit_two_mul]
        have hlk2 : lowbit k2 ≤ k2 := lowbit_le k2
        have hlm2 : lowbit m2 ≤ m2 := lowbit_le m2
        have g1 : m2 ≤ k2 := by omega
        have g2 : k2 - lowbit k2 < m2 := by omega
        have := ih k2 (by omega) m2 g1 g2
        omega
      · have em : lowbit m = 1 := lowbit_odd m (Nat.odd_iff.mp hmo)
        have hkk : lowbit k ≤ k := lowbit_le k
        omega
    · have ek : lowbit k = 1 := lowbit_odd k (Nat.odd_iff.mp ho)
      have hmk : m = k := by omega
      subst hmk
      exact le_rfl

/-! ### Fenwick tree: the `FenwickTree` class of `src/fenwick_tree.py`.

`tree` is the Python list `self.tree` (length `size + 1`), `size` the
field `self.size`.  The loops of `update` and `query` run on the 1-based
index `index + 1`; since the public operations take a 0-based index, the
loop variable is at least 1 throughout, which is what makes the `update`
loop terminate (each step adds `lowbit ≥ 1`).  The behaviour on negative
indices (where the source diverges) is modelled separately below with
fuel. -/

structure FenwickTree where
  size : Nat
  tree : List Int

/-- `__init__`: `self.size = size; self.tree = [0] * (size + 1)`. -/
def FenwickTree.construct (size : Nat) : FenwickTree :=
  ⟨size, List.replicate (size + 1) 0⟩

/-- The `while index <= self.size` loop of `update`, on the 1-based index
`k` (so `k ≥ 1` at every entry; the guard `1 ≤ k` added here is implied
at every call site and is required for termination). -/
def updateLoop (size : Nat) (t : List Int) (k : Nat) (d : Int) : List Int :=
  if h : 1 ≤ k ∧ k ≤ size then
    updateLoop size (t.set k (t.getD k 0 + d)) (k + lowbit k) d
  else t
termination_by size + 1 - k
decreasing_by
  have := lowbit_pos k h.1
  omega

/-- `update(index, delta)` for a 0-based `index ≥ 0`. -/
def FenwickTree.update (f : FenwickTree) (index : Nat) (delta : Int) : FenwickTree :=
  { f with tree := updateLoop f.size f.tree (index + 1) delta }

/-- The `while index > 0` loop of `query`, on the 1-based index `k`. -/
def queryLoop (t : List Int) (k : Nat) : Int :=
  if h : 1 ≤ k then t.getD k 0 + queryLoop t (k - lowbit k)
  else 0
termination_by k
decreasing_by
  have := lowbit_pos k h
  omega

/-- `query(index)` for a 0-based `index ≥ 0`. -/
def FenwickTree.query (f : FenwickTree) (index : Nat) : Int :=
  queryLoop f.tree (index + 1)

/-- `range_query(left, right)`. -/
def FenwickTree.range_query (f : FenwickTree) (left right : Nat) : Int :=
  if 0 < left then f.query right - f.query (left - 1)
  else f.query right

/-- `build_from_array(arr)`: `for i, val in enumerate(arr): self.update(i, val)`. -/
def FenwickTree.build_from_array (f : FenwickTree) (arr : List Int) : FenwickTree :=
  arr.enum.foldl (fun g p => g.update p.1 p.2) f

theorem updateLoop_length (size : Nat) (t : List Int) (k : Nat) (d : Int) :
    (updateLoop size t k d).length = t.length := by
  rw [updateLoop]
  split
  · rw [updateLoop_length]
    exact List.length_set t k _
  · rfl
termination_by size + 1 - k
decreasing_by
  have := lowbit_pos k (by omega)
  omega

theorem getD_set_ite (t : List Int) (m k : Nat) (v : Int) (hm : m < t.length) :
    (t.set m v).getD k 0 = if m = k then v else t.getD k 0 := by
  rcases eq_or_ne m k with h | h
  · subst h
    simp [List.getD_eq_getElem?_getD, List.getElem?_set_self', List.getElem?_eq_getElem hm]
  · simp [List.getD_eq_getElem?_getD, List.getElem?_set_ne h, h]

/-- Pointwise effect of the `update` loop: starting the loop at the 1-based
index `m ≥ 1` adds `delta` exactly to those cells `k` with
`m ≤ k ≤ size` and `k - lowbit k < m` (the classic Fenwick update set). -/
theorem updateLoop_getD (size : Nat) (d : Int) :
    ∀ (g : Nat) (t : List Int) (m : Nat), 1 ≤ m → t.length = size + 1 →
      size + 1 - m ≤ g → ∀ k,
      (updateLoop size t m d).getD k 0 =
        t.getD k 0 + (if m ≤ k ∧ k ≤ size ∧ k - lowbit k < m then d else 0) := by
  intro g
  induction g with
  | zero =>
    intro t m hm hlen hg k
    have hms : size < m := by omega
    rw [updateLoop]
    have : ¬ (1 ≤ m ∧ m ≤ size) := by omega
    simp only [this, dif_neg, not_false_iff]
    have : ¬ (m ≤ k ∧ k ≤ size ∧ k - lowbit k < m) := by
      rintro ⟨h1, h2, _⟩; omega
    simp [this]
  | succ g ih =>
    intro t m hm hlen hg k
    by_cases hms : m ≤ size
    · rw [updateLoop]
      have hcond : 1 ≤ m ∧ m ≤ size := ⟨hm, hms⟩
      simp only [hcond, and_self, dif_pos]
      have hmlt : m < t.length := by omega
      have hlb := lowbit_pos m hm
      have hrec := ih (t.set m (t.getD m 0 + d)) (m + lowbit m) (by omega)
        (by rw [List.length_set]; exact hlen) (by omega) k
      rw [hrec, getD_set_ite t m k _ hmlt]
      -- Split on whether cell k is hit now, hit later, or not hit at all.
      by_cases hk : k = m
      · subst hk
        have hnow : k ≤ k ∧ k ≤ size ∧ k - lowbit k < k := by
          refine ⟨le_rfl, hms, ?_⟩
          have := lowbit_pos k hm
          omega
        have hlater : ¬ (k + lowbit k ≤ k ∧ k ≤ size ∧ k - lowbit k < k + lowbit k) := by
          rintro ⟨h1, _, _⟩
          have := lowbit_pos k hm
          omega
        rw [if_pos rfl, if_neg hlater, if_pos hnow]
        ring
      · simp only [if_neg (Ne.symm hk)]
        congr 1
        by_cases hc : m + lowbit m ≤ k ∧ k ≤ size ∧ k - lowbit k < m + lowbit m
        · obtain ⟨h1, h2, h3⟩ := hc
          have hkm : k - lowbit k < m := by
            have hsub := lowbit_sub_mono k (m + lowbit m) h1 h3
            have hdbl := lowbit_add_self m hm
            have hlbm : lowbit (m + lowbit m) ≤ m + lowbit m := lowbit_le (m + lowbit m)
            omega
          have : m ≤ k ∧ k ≤ size ∧ k - lowbit k < m := ⟨by omega, h2, hkm⟩
          simp [this, h1, h2, h3]
        · have : ¬ (m ≤ k ∧ k ≤ size ∧ k - lowbit k < m) := by
            rintro ⟨h1, h2, h3⟩
            apply hc
            have hmk : m < k := lt_of_le_of_ne h1 (fun e => hk (e.symm))
            have := lowbit_step_le k m h3 hmk
            exact ⟨this, h2, by omega⟩
          simp [this, hc]
    · rw [updateLoop]
      have : ¬ (1 ≤ m ∧ m ≤ size) := by omega
      simp only [this, dif_neg, not_false_iff]
      have : ¬ (m ≤ k ∧ k ≤ size ∧ k - lowbit k < m) := by
        rintro ⟨h1, h2, _⟩; omega
      simp [this]

/-! ### Fenwick tree: representation invariant and abstract model. -/

/-- The classic Fenwick invariant (spec §3): the cell at 1-based position
`k` holds the sum of the abstract 0-based array `a` over
`[k - lowbit k, k)`. -/
def Reps (f : FenwickTree) (a : Nat → Int) : Prop :=
  f.tree.length = f.size + 1 ∧
  ∀ k, 1 ≤ k → k ≤ f.size →
    f.tree.getD k 0 = ∑ j in Finset.Ico (k - lowbit k) k, a j

theorem reps_construct (n : Nat) : Reps (FenwickTree.construct n) (fun _ => 0) := by
  refine ⟨by simp [FenwickTree.construct], ?_⟩
  intro k _ _
  have : (List.replicate (n + 1) (0 : Int)).getD k 0 = 0 := by
    simp [List.getD_eq_getElem?_getD, List.getElem?_replicate]
    split <;> simp
  simp [FenwickTree.construct, this]

theorem sum_update_add (s : Finset ℕ) (a : ℕ → ℤ) (j : ℕ) (d : ℤ) :
    ∑ x in s, Function.update a j (a j + d) x
      = (∑ x in s, a x) + (if j ∈ s then d else 0) := by
  have hpt : ∀ x, Function.update a j (a j + d) x = a x + (if x = j then d else 0) := by
    intro x
    rcases eq_or_ne x j with h | h
    · subst h; simp [Function.update_same]
    · simp [Function.update_noteq h, h]
  rw [Finset.sum_congr rfl (fun x _ => hpt x), Finset.sum_add_distrib]
  congr 1
  simp [Finset.sum_ite_eq']

theorem reps_update (f : FenwickTree) (a : Nat → Int) (j : Nat) (d : Int)
    (hr : Reps f a) (hj : j < f.size) :
    Reps (f.update j d) (Function.update a j (a j + d)) := by
  obtain ⟨hlen, hcell⟩ := hr
  refine ⟨?_, ?_⟩
  · show (updateLoop f.size f.tree (j + 1) d).length = f.size + 1
    rw [updateLoop_length]; exact hlen
  · intro k h1 h2
    have h2' : k ≤ f.size := h2
    show (updateLoop f.size f.tree (j + 1) d).getD k 0 = _
    rw [updateLoop_getD f.size d (f.size + 1) f.tree (j + 1) (by omega) hlen (by omega) k]
    rw [hcell k h1 h2', sum_update_add]
    congr 1
    have hmem : j ∈ Finset.Ico (k - lowbit k) k ↔
        (j + 1 ≤ k ∧ k ≤ f.size ∧ k - lowbit k < j + 1) := by
      simp only [Finset.mem_Ico]
      omega
    by_cases hc : j + 1 ≤ k ∧ k ≤ f.size ∧ k - lowbit k < j + 1
    · rw [if_pos hc, if_pos (hmem.mpr hc)]
    · rw [if_neg hc, if_neg (fun hm => hc (hmem.mp hm))]

theorem queryLoop_eq (t : List Int) (size : Nat) (a : Nat → Int)
    (hrep : ∀ k, 1 ≤ k → k ≤ size →
      t.getD k 0 = ∑ j in Finset.Ico (k - lowbit k) k, a j) :
    ∀ k, k ≤ size → queryLoop t k = ∑ j in Finset.range k, a j := by
  intro k
  induction k using Nat.strong_induction_on with
  | _ k ih =>
    intro hk
    by_cases h1 : 1 ≤ k
    · rw [queryLoop]
      simp only [h1, dif_pos]
      have hlb := lowbit_pos k h1
      have hle := lowbit_le k
      rw [hrep k h1 hk, ih (k - lowbit k) (by omega) (by omega)]
      rw [Finset.range_eq_Ico, add_comm]
      exact Finset.sum_Ico_consecutive a (by omega) (by omega)
    · rw [queryLoop]
      have hk0 : k = 0 := by omega
      simp [h1, hk0]

theorem query_reps (f : FenwickTree) (a : Nat → Int) (hr : Reps f a)
    (i : Nat) (hi : i < f.size) :
    f.query i = ∑ j in Finset.range (i + 1), a j :=
  queryLoop_eq f.tree f.size a hr.2 (i + 1) (by omega)

/-- A caller-side sequence of `update(index, delta)` calls. -/
def applyUpdates (f : FenwickTree) (us : List (Nat × Int)) : FenwickTree :=
  us.foldl (fun g p => g.update p.1 p.2) f

/-- The abstract array after applying the same deltas pointwise. -/
def updArray (a : Nat → Int) (us : List (Nat × Int)) : Nat → Int :=
  us.foldl (fun b p => Function.update b p.1 (b p.1 + p.2)) a

/-- Sum of all deltas applied at positions `≤ i`. -/
def sumDeltasLe (us : List (Nat × Int)) (i : Nat) : Int :=
  ((us.filter (fun p => p.1 ≤ i)).map Prod.snd).sum

theorem size_applyUpdates : ∀ (us : List (Nat × Int)) (f : FenwickTree),
    (applyUpdates f us).size = f.size
  | [], _ => rfl
  | p :: us, f => size_applyUpdates us (f.update p.1 p.2)

theorem reps_applyUpdates : ∀ (us : List (Nat × Int)) (f : FenwickTree) (a : Nat → Int),
    Reps f a → (∀ p ∈ us, p.1 < f.size) →
    Reps (applyUpdates f us) (updArray a us)
  | [], _, _, hr, _ => hr
  | p :: us, f, a, hr, hin =>
    reps_applyUpdates us (f.update p.1 p.2) (Function.update a p.1 (a p.1 + p.2))
      (reps_update f a p.1 p.2 hr (hin p (List.mem_cons_self _ _)))
      (fun q hq => hin q (List.mem_cons_of_mem _ hq))

theorem sum_updArray : ∀ (us : List (Nat × Int)) (a : Nat → Int) (i : Nat),
    ∑ j in Finset.range (i + 1), updArray a us j
      = (∑ j in Finset.range (i + 1), a j) + sumDeltasLe us i
  | [], a, i => by simp [updArray, sumDeltasLe]
  | p :: us, a, i => by
    show ∑ j in Finset.range (i + 1), updArray (Function.update a p.1 (a p.1 + p.2)) us j = _
    rw [sum_updArray us _ i, sum_update_add]
    have hlst : sumDeltasLe (p :: us) i
        = (if p.1 ≤ i then p.2 else 0) + sumDeltasLe us i := by
      by_cases h : p.1 ≤ i <;> simp [sumDeltasLe, h]
    rw [hlst]
    simp only [Finset.mem_range, Nat.lt_succ_iff]
    ring

/-- Central Fenwick lemma shared by several claims: after any valid update
sequence on a freshly constructed tree, `query i` is the sum of all deltas
applied at positions `≤ i`. -/
theorem query_applyUpdates (n : Nat) (us : List (Nat × Int))
    (hus : ∀ p ∈ us, p.1 < n) (i : Nat) (hi : i < n) :
    (applyUpdates (FenwickTree.construct n) us).query i = sumDeltasLe us i := by
  have hreps := reps_applyUpdates us (FenwickTree.construct n) (fun _ => 0)
    (reps_construct n) hus
  have hsize : (applyUpdates (FenwickTree.construct n) us).size = n :=
    size_applyUpdates us (FenwickTree.construct n)
  rw [query_reps _ _ hreps i (by rw [hsize]; exact hi), sum_updArray]
  simp

/-- C1 — Fenwick linearity: for the tree constructed with any size `n ≥ 1`
and any finite sequence of `update(index, delta)` calls with every index in
`[0, n)`, `query(i)` for every `i` in `[0, n)` returns the sum of all
deltas applied at positions `≤ i`, and `range_query(l, r)` for every valid
`0 ≤ l ≤ r < n` equals `query(r) - query(l-1)` when `l > 0` and `query(r)`
when `l = 0`. -/
theorem fenwick_linearity (n : Nat) (hn : 1 ≤ n) (us : List (Nat × Int))
    (hus : ∀ p ∈ us, p.1 < n) :
    (∀ i, i < n →
      (applyUpdates (FenwickTree.construct n) us).query i = sumDeltasLe us i) ∧
    (∀ l r, l ≤ r → r < n →
      (applyUpdates (FenwickTree.construct n) us).range_query l r =
        if 0 < l then
          (applyUpdates (FenwickTree.construct n) us).query r
            - (applyUpdates (FenwickTree.construct n) us).query (l - 1)
        else (applyUpdates (FenwickTree.construct n) us).query r) := by
  refine ⟨fun i hi => query_applyUpdates n us hus i hi, fun l r _ _ => rfl⟩

theorem fenwick_linearity_witness :
    (1 ≤ 3 ∧ ∀ p ∈ [((0 : Nat), (5 : Int)), (2, 7), (0, -2)], p.1 < 3) ∧
    (applyUpdates (FenwickTree.construct 3) [(0, 5), (2, 7), (0, -2)]).query 1
      = sumDeltasLe [((0 : Nat), (5 : Int)), (2, 7), (0, -2)] 1 :=
  ⟨⟨by norm_num, by decide⟩,
    (fenwick_linearity 3 (by norm_num) [(0, 5), (2, 7), (0, -2)] (by decide)).1 1 (by norm_num)⟩

/-- C9 — out-of-range Fenwick update is a silent no-op: if `index ≥ size`
then the 1-based loop index starts above `size`, the `while` loop body never
runs, and the whole `FenwickTree` value (tree cells and `size` field) is
returned unchanged. -/
theorem fenwick_update_out_of_range (f : FenwickTree) (index : Nat) (delta : Int)
    (h : f.size ≤ index) : f.update index delta = f := by
  show { f with tree := updateLoop f.size f.tree (index + 1) delta } = f
  rw [updateLoop]
  have hc : ¬ (1 ≤ index + 1 ∧ index + 1 ≤ f.size) := by omega
  rw [dif_neg hc]

theorem fenwick_update_out_of_range_witness :
    (FenwickTree.construct 4).size ≤ 4 ∧
      (FenwickTree.construct 4).update 4 9 = FenwickTree.construct 4 :=
  ⟨by decide, fenwick_update_out_of_range (FenwickTree.construct 4) 4 9 (by decide)⟩

/-! ### Bridging `build_from_array` to `applyUpdates`. -/

theorem build_eq_applyUpdates (f : FenwickTree) (arr : List Int) :
    f.build_from_array arr = applyUpdates f arr.enum := rfl

theorem enumFrom_fst_lt : ∀ (l : List Int) (s : Nat) (p : Nat × Int),
    p ∈ l.enumFrom s → p.1 < s + l.length
  | [], _, _, h => by simp at h
  | x :: l, s, p, h => by
    rcases List.mem_cons.mp h with h | h
    · subst h; simp
    · have := enumFrom_fst_lt l (s + 1) p h
      simp only [List.length_cons]
      omega

theorem filter_enumFrom_le : ∀ (l : List Int) (s i : Nat),
    (((l.enumFrom s).filter (fun p => p.1 ≤ i)).map Prod.snd) = l.take (i + 1 - s)
  | [], s, i => by simp
  | x :: l, s, i => by
    show (((s, x) :: l.enumFrom (s + 1)).filter (fun p => p.1 ≤ i)).map Prod.snd = _
    by_cases h : s ≤ i
    · rw [List.filter_cons_of_pos (by simpa using h)]
      rw [List.map_cons, filter_enumFrom_le l (s + 1) i]
      have h1 : i + 1 - s = (i - s) + 1 := by omega
      have h2 : i + 1 - (s + 1) = i - s := by omega
      rw [h1, h2, List.take_succ_cons]
    · rw [List.filter_cons_of_neg (by simpa using h)]
      rw [filter_enumFrom_le l (s + 1) i]
      have h1 : i + 1 - s = 0 := by omega
      have h2 : i + 1 - (s + 1) = 0 := by omega
      rw [h1, h2]
      simp

theorem sumDeltasLe_enum (arr : List Int) (i : Nat) :
    sumDeltasLe arr.enum i = (arr.take (i + 1)).sum := by
  show ((arr.enum.filter (fun p => p.1 ≤ i)).map Prod.snd).sum = _
  have : arr.enum = arr.enumFrom 0 := rfl
  rw [this, filter_enumFrom_le arr 0 i, Nat.sub_zero]

/-- C6 — Fenwick build equivalence and concrete scenario: after
`construct(n)` and `build_from_array(arr)` with `len(arr) ≤ n`, `query(i)`
equals `arr[0] + ... + arr[i]` for every `i < len(arr)`; and for
`arr = [1,3,5,7,9,11]` with `n = 6`: `query(2) = 9`, `query(5) = 36`,
`range_query(1,3) = 15`, and after `update(2, 10)`, `query(2) = 19`. -/
theorem fenwick_build_equiv (n : Nat) (arr : List Int) (harr : arr.length ≤ n) :
    (∀ i, i < arr.length →
      ((FenwickTree.construct n).build_from_array arr).query i = (arr.take (i + 1)).sum) ∧
    (((FenwickTree.construct 6).build_from_array [1, 3, 5, 7, 9, 11]).query 2 = 9 ∧
      ((FenwickTree.construct 6).build_from_array [1, 3, 5, 7, 9, 11]).query 5 = 36 ∧
      ((FenwickTree.construct 6).build_from_array [1, 3, 5, 7, 9, 11]).range_query 1 3 = 15 ∧
      (((FenwickTree.construct 6).build_from_array [1, 3, 5, 7, 9, 11]).update 2 10).query 2
        = 19) := by
  have hgen : ∀ (m : Nat) (brr : List Int), brr.length ≤ m → ∀ i, i < brr.length →
      ((FenwickTree.construct m).build_from_array brr).query i = (brr.take (i + 1)).sum := by
    intro m brr hlen i hi
    rw [build_eq_applyUpdates]
    have hus : ∀ p ∈ brr.enum, p.1 < m := by
      intro p hp
      have := enumFrom_fst_lt brr 0 p hp
      omega
    rw [query_applyUpdates m brr.enum hus i (by omega), sumDeltasLe_enum]
  refine ⟨hgen n arr harr, ?_, ?_, ?_, ?_⟩
  · rw [hgen 6 [1, 3, 5, 7, 9, 11] (by norm_num) 2 (by norm_num)]
    decide
  · rw [hgen 6 [1, 3, 5, 7, 9, 11] (by norm_num) 5 (by norm_num)]
    decide
  · show (if 0 < 1 then _ - _ else _) = (15 : Int)
    rw [if_pos (by norm_num : (0 : Nat) < 1)]
    rw [hgen 6 [1, 3, 5, 7, 9, 11] (by norm_num) 3 (by norm_num)]
    rw [hgen 6 [1, 3, 5, 7, 9, 11] (by norm_num) 0 (by norm_num)]
    decide
  · have hsplit : ((FenwickTree.construct 6).build_from_array [1, 3, 5, 7, 9, 11]).update 2 10
        = applyUpdates (FenwickTree.construct 6)
            (([1, 3, 5, 7, 9, 11] : List Int).enum ++ [(2, 10)]) := by
      rw [build_eq_applyUpdates, applyUpdates, applyUpdates, List.foldl_append]
      rfl
    rw [hsplit]
    rw [query_applyUpdates 6 _ (by decide) 2 (by norm_num)]
    decide

theorem fenwick_build_equiv_witness :
    (([(2 : Int), 4, 6] : List Int).length ≤ 3 ∧ 1 < ([(2 : Int), 4, 6] : List Int).length) ∧
    ((FenwickTree.construct 3).build_from_array [2, 4, 6]).query 1
      = (([(2 : Int), 4, 6] : List Int).take 2).sum :=
  ⟨⟨by norm_num, by norm_num⟩,
    (fenwick_build_equiv 3 [2, 4, 6] (by norm_num)).1 1 (by norm_num)⟩

/-! ### Fenwick tree on raw (possibly negative) Python integers.

`update` and `query` as written in the source operate on Python ints, with
Python list subscripts (negative indices address from the end, raising
`IndexError` outside `[-len, len)`).  The step value `index & (-index)` on
two's-complement integers equals the lowest set bit of `|index|` (as a
non-negative value) for every integer: writing `|i| = b·2^s` with `b` odd,
both `i` and `-i` end in the bit pattern `100…0` (`s` zeros), so their
conjunction is `2^s`; for `i = 0` it is `0`.  Because the step at `index = 0`
is `0`, the `while index <= size` loop of `update` never advances from `0`:
the source diverges there.  The loop is therefore modelled with fuel;
`none` means the fuel ran out (the loop was still running). -/

/-- Python list read `t[i]`: negative `i` addresses from the end; out of
range raises `IndexError` (`none`). -/
def pyGet (t : List Int) (i : Int) : Option Int :=
  let j : Int := if i < 0 then (t.length : Int) + i else i
  if 0 ≤ j ∧ j < (t.length : Int) then some (t.getD j.toNat 0) else none

/-- Python list write `t[i] = v`, same index rule as `pyGet`. -/
def pySet (t : List Int) (i : Int) (v : Int) : Option (List Int) :=
  let j : Int := if i < 0 then (t.length : Int) + i else i
  if 0 ≤ j ∧ j < (t.length : Int) then some (t.set j.toNat v) else none

/-- Python `index & (-index)`: the lowest set bit of `|index|`. -/
def intLowbit (i : Int) : Int := (lowbit i.natAbs : Nat)

/-- Outcome of a Fenwick loop that was given enough fuel: the final list,
or an `IndexError` from a list subscript. -/
inductive FenRes where
  | ok (t : List Int)
  | err
deriving DecidableEq

/-- The `update` loop on raw integers, with fuel. -/
def updateFuel (size : Int) (t : List Int) (k d : Int) : Nat → Option FenRes
  | 0 => none
  | fuel + 1 =>
    if k ≤ size then
      match pyGet t k with
      | none => some .err
      | some v =>
        match pySet t k (v + d) with
        | none => some .err
        | some t2 => updateFuel size t2 (k + intLowbit k) d fuel
    else some (.ok t)

/-- `update(index, delta)` on a raw integer index: the loop starts at the
1-based position `index + 1`. -/
def FenwickTree.updateRaw (f : FenwickTree) (index delta : Int) (fuel : Nat) : Option FenRes :=
  updateFuel (f.size : Int) f.tree (index + 1) delta fuel

/-- Outcome of the `query` loop: the returned sum, or an `IndexError`. -/
inductive QryRes where
  | ok (v : Int)
  | err
deriving DecidableEq

/-- The `query` loop on raw integers (`result` is the accumulator), with
fuel. -/
def queryFuel (t : List Int) (k acc : Int) : Nat → Option QryRes
  | 0 => none
  | fuel + 1 =>
    if 0 < k then
      match pyGet t k with
      | none => some .err
      | some v => queryFuel t (k - intLowbit k) (acc + v) fuel
    else some (.ok acc)

/-- `query(index)` on a raw integer index. -/
def FenwickTree.queryRaw (f : FenwickTree) (index : Int) (fuel : Nat) : Option QryRes :=
  queryFuel f.tree (index + 1) 0 fuel

theorem updateFuel_stuck_at_zero (d : Int) :
    ∀ (fuel : Nat) (t : List Int), t.length = 4 → updateFuel 3 t 0 d fuel = none := by
  intro fuel
  induction fuel with
  | zero => intro t _; rfl
  | succ fuel ih =>
    intro t hlen
    have hget : pyGet t 0 = some (t.getD 0 0) := by
      simp [pyGet, hlen]
    have hset : pySet t 0 (t.getD 0 0 + d) = some (t.set 0 (t.getD 0 0 + d)) := by
      simp [pySet, hlen]
    have hlb : intLowbit 0 = 0 := by
      simp [intLowbit, lowbit_zero]
    show updateFuel 3 t 0 d (fuel + 1) = none
    rw [updateFuel]
    rw [if_pos (by norm_num : (0 : Int) ≤ 3)]
    simp only [hget, hset, hlb, add_zero]
    exact ih _ (by rw [List.length_set]; exact hlen)

/-- C3 counterexample — the claim that every operation terminates and
returns on any input fails: `update(-1, 5)` on a Fenwick tree of size 3
starts its loop at 1-based position `0`, where the step `index & (-index)`
is `0`, so the loop never terminates (no amount of fuel yields a result). -/
theorem fenwick_update_neg_diverges :
    ¬ ∃ (fuel : Nat) (r : FenRes),
        (FenwickTree.construct 3).updateRaw (-1) 5 fuel = some r := by
  rintro ⟨fuel, r, hr⟩
  have : (FenwickTree.construct 3).updateRaw (-1) 5 fuel = none := by
    show updateFuel ((FenwickTree.construct 3).size : Int)
      (FenwickTree.construct 3).tree (-1 + 1) 5 fuel = none
    norm_num
    exact updateFuel_stuck_at_zero 5 fuel _ (by decide)
  rw [this] at hr
  exact Option.noConfusion hr


theorem pyGet_coe (t : List Int) (k : Nat) (hk : k < t.length) :
    pyGet t (k : Int) = some (t.getD k 0) := by
  have h0 : ¬ ((k : Int) < 0) := by omega
  have h1 : (0 : Int) ≤ (k : Int) ∧ (k : Int) < (t.length : Int) := by omega
  simp [pyGet, h0, h1]

theorem pyGet_oob (t : List Int) (k : Nat) (hk : t.length ≤ k) :
    pyGet t (k : Int) = none := by
  have h0 : ¬ ((k : Int) < 0) := by omega
  have h1 : ¬ ((0 : Int) ≤ (k : Int) ∧ (k : Int) < (t.length : Int)) := by omega
  simp only [pyGet, h0, if_false, if_neg h1]

theorem pySet_coe (t : List Int) (k : Nat) (v : Int) (hk : k < t.length) :
    pySet t (k : Int) v = some (t.set k v) := by
  have h0 : ¬ ((k : Int) < 0) := by omega
  have h1 : (0 : Int) ≤ (k : Int) ∧ (k : Int) < (t.length : Int) := by omega
  simp [pySet, h0, h1]

theorem updateFuel_agrees (size : Nat) (d : Int) :
    ∀ (g : Nat) (t : List Int) (k : Nat), 1 ≤ k → t.length = size + 1 →
      size + 1 - k ≤ g →
      updateFuel (size : Int) t (k : Int) d (g + 1)
        = some (.ok (updateLoop size t k d)) := by
  intro g
  induction g with
  | zero =>
    intro t k hk hlen hg
    rw [updateFuel, if_neg (by omega)]
    rw [updateLoop, dif_neg (by omega)]
  | succ g ih =>
    intro t k hk hlen hg
    by_cases hks : k ≤ size
    · have hget := pyGet_coe t k (by omega)
      have hset := pySet_coe t k (t.getD k 0 + d) (by omega)
      have hstep : (k : Int) + intLowbit (k : Int) = ((k + lowbit k : Nat) : Int) := by
        simp only [intLowbit, Int.natAbs_ofNat]
        push_cast
        ring
      rw [updateFuel, if_pos (by omega)]
      simp only [hget, hset, hstep]
      have hlb := lowbit_pos k hk
      rw [ih (t.set k (t.getD k 0 + d)) (k + lowbit k) (by omega)
        (by rw [List.length_set]; exact hlen) (by omega)]
      conv_rhs => rw [updateLoop]
      rw [dif_pos ⟨hk, hks⟩]
    · rw [updateFuel, if_neg (by omega)]
      rw [updateLoop, dif_neg (by omega)]

theorem queryFuel_agrees (t : List Int) (size : Nat) (hlen : t.length = size + 1) :
    ∀ (k : Nat), k ≤ size → ∀ (acc : Int) (fuel : Nat), k < fuel →
      queryFuel t (k : Int) acc fuel = some (.ok (acc + queryLoop t k)) := by
  intro k
  induction k using Nat.strong_induction_on with
  | _ k ih =>
    intro hk acc fuel hfuel
    obtain ⟨f, rfl⟩ : ∃ f, fuel = f + 1 := ⟨fuel - 1, by omega⟩
    by_cases h1 : 1 ≤ k
    · have hget := pyGet_coe t k (by omega)
      have hlb := lowbit_pos k h1
      have hle := lowbit_le k
      have hstep : (k : Int) - intLowbit (k : Int) = ((k - lowbit k : Nat) : Int) := by
        simp only [intLowbit, Int.natAbs_ofNat]
        omega
      rw [queryFuel, if_pos (by omega)]
      simp only [hget, hstep]
      rw [ih (k - lowbit k) (by omega) (by omega) (acc + t.getD k 0) f (by omega)]
      conv_rhs => rw [queryLoop]
      rw [dif_pos h1, add_assoc]
    · have hk0 : k = 0 := by omega
      subst hk0
      rw [queryFuel, if_neg (by norm_num)]
      rw [queryLoop, dif_neg (by norm_num)]
      rw [add_zero]

/-- C3 amended — all public operations of the three structures terminate on
every in-contract input, and the Fenwick loops on non-negative indices
terminate within `size + 2` iterations agreeing with the total model
(`update` for every `index ≥ 0` including out-of-range ones, `query` for
`index < size` returning a value, for `index ≥ size` raising `IndexError`,
and for negative indices returning `0`); `update` with a negative index,
however, either raises or — as at `index = -1` — never terminates, so the
original claim fails only there. -/
theorem fenwick_ops_terminate (f : FenwickTree) (hlen : f.tree.length = f.size + 1)
    (index : Nat) (d : Int) :
    f.updateRaw (index : Int) d (f.size + 2)
        = some (.ok (updateLoop f.size f.tree (index + 1) d)) ∧
    (index < f.size →
      f.queryRaw (index : Int) (f.size + 2) = some (.ok (f.query index))) ∧
    (f.size ≤ index → f.queryRaw (index : Int) (f.size + 2) = some .err) ∧
    (∀ i : Int, i < 0 → f.queryRaw i (f.size + 2) = some (.ok 0)) := by
  refine ⟨?_, ?_, ?_, ?_⟩
  · show updateFuel (f.size : Int) f.tree ((index : Int) + 1) d (f.size + 2) = _
    have hcast : ((index : Int) + 1) = ((index + 1 : Nat) : Int) := by push_cast; ring
    rw [hcast]
    exact updateFuel_agrees f.size d (f.size + 1) f.tree (index + 1) (by omega) hlen (by omega)
  · intro hi
    show queryFuel f.tree ((index : Int) + 1) 0 (f.size + 2) = _
    have hcast : ((index : Int) + 1) = ((index + 1 : Nat) : Int) := by push_cast; ring
    rw [hcast]
    rw [queryFuel_agrees f.tree f.size hlen (index + 1) (by omega) 0 (f.size + 2) (by omega)]
    rw [zero_add]
    rfl
  · intro hi
    show queryFuel f.tree ((index : Int) + 1) 0 (f.size + 2) = _
    have hcast : ((index : Int) + 1) = ((index + 1 : Nat) : Int) := by push_cast; ring
    have hget := pyGet_oob f.tree (index + 1) (by omega)
    obtain ⟨g, hg⟩ : ∃ g, f.size + 2 = g + 1 := ⟨f.size + 1, rfl⟩
    rw [hcast, hg, queryFuel, if_pos (by omega)]
    simp only [hget]
  · intro i hi
    show queryFuel f.tree (i + 1) 0 (f.size + 2) = _
    obtain ⟨g, hg⟩ : ∃ g, f.size + 2 = g + 1 := ⟨f.size + 1, rfl⟩
    rw [hg, queryFuel, if_neg (by omega)]

theorem fenwick_ops_terminate_witness :
    ((FenwickTree.construct 2).tree.length = (FenwickTree.construct 2).size + 1 ∧
      (1 : Nat) < (FenwickTree.construct 2).size ∧ (-3 : Int) < 0) ∧
    ((FenwickTree.construct 2).updateRaw ((1 : Nat) : Int) 5 ((FenwickTree.construct 2).size + 2)
        = some (.ok (updateLoop (FenwickTree.construct 2).size (FenwickTree.construct 2).tree
            (1 + 1) 5)) ∧
      ((1 : Nat) < (FenwickTree.construct 2).size →
        (FenwickTree.construct 2).queryRaw ((1 : Nat) : Int) ((FenwickTree.construct 2).size + 2)
          = some (.ok ((FenwickTree.construct 2).query 1))) ∧
      ((FenwickTree.construct 2).size ≤ (1 : Nat) →
        (FenwickTree.construct 2).queryRaw ((1 : Nat) : Int) ((FenwickTree.construct 2).size + 2)
          = some .err) ∧
      (∀ i : Int, i < 0 →
        (FenwickTree.construct 2).queryRaw i ((FenwickTree.construct 2).size + 2)
          = some (.ok 0))) :=
  ⟨⟨by decide, by decide, by decide⟩,
    fenwick_ops_terminate (FenwickTree.construct 2) (by decide) 1 5⟩

/-! ### Trie: the `Trie` / `TrieNode` classes of `src/trie.py`.

A node's `children` dict (character → child node, insertion-ordered, as
Python dicts are) is modelled as an association list; `d[c] = v` updates
the value in place for an existing key and appends at the end for a new
key, which `setChild` reproduces.  Words are lists of characters.  The
in-place mutation of nodes becomes functional path rebuilding. -/

inductive TrieNode where
  | mk (children : List (Char × TrieNode)) (is_end : Bool)

def TrieNode.children : TrieNode → List (Char × TrieNode)
  | .mk c _ => c

def TrieNode.is_end : TrieNode → Bool
  | .mk _ e => e

/-- Python `node.children[char]` / `char in node.children`. -/
def lookupChild : List (Char × TrieNode) → Char → Option TrieNode
  | [], _ => none
  | (c', n) :: rest, c => if c' = c then some n else lookupChild rest c

/-- Python `node.children[char] = v`: update in place, or append a new
key at the end (dict insertion order). -/
def setChild : List (Char × TrieNode) → Char → TrieNode → List (Char × TrieNode)
  | [], c, n => [(c, n)]
  | (c', m) :: rest, c, n =>
    if c' = c then (c, n) :: rest else (c', m) :: setChild rest c n

structure Trie where
  root : TrieNode
  word_count : Nat

/-- `__init__`: empty root, zero word count. -/
def Trie.construct : Trie := ⟨.mk [] false, 0⟩

/-- `insert`'s walk: create missing children, set `is_end` on the final
node.  The boolean result is `not node.is_end` of the final node before
the write — exactly Python's word-count increment condition. -/
def insertNode : TrieNode → List Char → TrieNode × Bool
  | node, [] => (.mk node.children true, ! node.is_end)
  | node, c :: cs =>
    let child := match lookupChild node.children c with
      | some ch => ch
      | none => .mk [] false
    let r := insertNode child cs
    (.mk (setChild node.children c r.1) node.is_end, r.2)

def Trie.insert (t : Trie) (w : List Char) : Trie :=
  ⟨(insertNode t.root w).1,
    t.word_count + (if (insertNode t.root w).2 then 1 else 0)⟩

def searchNode : TrieNode → List Char → Bool
  | node, [] => node.is_end
  | node, c :: cs =>
    match lookupChild node.children c with
    | none => false
    | some ch => searchNode ch cs

def Trie.search (t : Trie) (w : List Char) : Bool := searchNode t.root w

def startsWithNode : TrieNode → List Char → Bool
  | _, [] => true
  | node, c :: cs =>
    match lookupChild node.children c with
    | none => false
    | some ch => startsWithNode ch cs

def Trie.starts_with (t : Trie) (p : List Char) : Bool := startsWithNode t.root p

/-- `delete`'s walk: `none` when the path is absent or the final node is
not terminal (Python returns `False`); otherwise the rebuilt root with the
final node's flag cleared. -/
def deleteNode : TrieNode → List Char → Option TrieNode
  | node, [] => if node.is_end then some (.mk node.children false) else none
  | node, c :: cs =>
    match lookupChild node.children c with
    | none => none
    | some ch =>
      match deleteNode ch cs with
      | none => none
      | some ch2 => some (.mk (setChild node.children c ch2) node.is_end)

def Trie.delete (t : Trie) (w : List Char) : Bool × Trie :=
  match deleteNode t.root w with
  | none => (false, t)
  | some r => (true, ⟨r, t.word_count - 1⟩)

mutual

/-- `_dfs_collect`: current word first when terminal, then the children in
dict order (Python appends to a shared `results` list in this order). -/
def dfs_collect : TrieNode → List Char → List (List Char)
  | .mk children e, cur => (if e then [cur] else []) ++ dfsChildren children cur

def dfsChildren : List (Char × TrieNode) → List Char → List (List Char)
  | [], _ => []
  | (c, n) :: rest, cur => dfs_collect n (cur ++ [c]) ++ dfsChildren rest cur

end

def findNode : TrieNode → List Char → Option TrieNode
  | node, [] => some node
  | node, c :: cs =>
    match lookupChild node.children c with
    | none => none
    | some ch => findNode ch cs

/-- `get_all_words_with_prefix(p)`: locate the node for `p` (empty result
when absent), then collect all words below it. -/
def Trie.get_all_words (t : Trie) (p : List Char) : List (List Char) :=
  match findNode t.root p with
  | none => []
  | some n => dfs_collect n p

/-- C7 — Trie concrete scenario: after inserting exactly "hello", "help",
"heap" into a fresh trie, `search("hell")` is false;
`get_all_words_with_prefix("he")` returns exactly those three words (each
once, in the implementation's DFS order); and after `delete("hello")`,
`search("help")` is true and the word count equals 2. -/
theorem trie_concrete :
    (((Trie.construct.insert ['h', 'e', 'l', 'l', 'o']).insert
        ['h', 'e', 'l', 'p']).insert ['h', 'e', 'a', 'p']).search ['h', 'e', 'l', 'l'] = false ∧
    (((Trie.construct.insert ['h', 'e', 'l', 'l', 'o']).insert
        ['h', 'e', 'l', 'p']).insert ['h', 'e', 'a', 'p']).get_all_words ['h', 'e']
      = [['h', 'e', 'l', 'l', 'o'], ['h', 'e', 'l', 'p'], ['h', 'e', 'a', 'p']] ∧
    (((((Trie.construct.insert ['h', 'e', 'l', 'l', 'o']).insert
        ['h', 'e', 'l', 'p']).insert ['h', 'e', 'a', 'p']).delete
          ['h', 'e', 'l', 'l', 'o']).2).search ['h', 'e', 'l', 'p'] = true ∧
    (((((Trie.construct.insert ['h', 'e', 'l', 'l', 'o']).insert
        ['h', 'e', 'l', 'p']).insert ['h', 'e', 'a', 'p']).delete
          ['h', 'e', 'l', 'l', 'o']).2).word_count = 2 := by
  refine ⟨by decide, by decide, by decide, by decide⟩


theorem lookup_setChild (c c' : Char) (n : TrieNode) :
    ∀ l : List (Char × TrieNode),
      lookupChild (setChild l c n) c' = if c = c' then some n else lookupChild l c'
  | [] => by
    by_cases h : c = c' <;> simp [setChild, lookupChild, h]
  | (c1, m) :: rest => by
    by_cases h1 : c1 = c
    · subst h1
      by_cases h2 : c1 = c'
      · simp [setChild, lookupChild, h2]
      · simp [setChild, lookupChild, h2]
    · by_cases h2 : c1 = c'
      · subst h2
        have hne : ¬ c = c1 := fun h => h1 h.symm
        simp [setChild, lookupChild, h1, hne]
      · simp [setChild, lookupChild, h1, h2, lookup_setChild c c' n rest]

theorem searchNode_nil_node : ∀ w : List Char, searchNode (.mk [] false) w = false
  | [] => rfl
  | _ :: _ => rfl

theorem searchNode_insertNode : ∀ (v : List Char) (nd : TrieNode) (w : List Char),
    searchNode (insertNode nd v).1 w = if v = w then true else searchNode nd w
  | [], nd, [] => by
    cases nd with
    | mk ch e => simp [insertNode, searchNode, TrieNode.children, TrieNode.is_end]
  | [], nd, c :: ws => by
    cases nd with
    | mk ch e =>
      cases hl : lookupChild ch c with
      | none => simp [insertNode, searchNode, TrieNode.children, hl]
      | some child => simp [insertNode, searchNode, TrieNode.children, hl]
  | a :: vs, nd, [] => by
    cases nd with
    | mk ch e =>
      cases hl : lookupChild ch a with
      | none => simp [insertNode, searchNode, TrieNode.children, TrieNode.is_end, hl]
      | some child => simp [insertNode, searchNode, TrieNode.children, TrieNode.is_end, hl]
  | a :: vs, nd, c :: ws => by
    cases nd with
    | mk ch e =>
      by_cases hac : a = c
      · subst hac
        cases hl : lookupChild ch a with
        | none =>
          by_cases hvw : vs = ws
          · subst hvw
            simp [insertNode, searchNode, TrieNode.children, TrieNode.is_end, hl,
              lookup_setChild, searchNode_insertNode vs, searchNode_nil_node]
          · simp [insertNode, searchNode, TrieNode.children, TrieNode.is_end, hl,
              lookup_setChild, hvw, searchNode_insertNode vs, searchNode_nil_node]
        | some child =>
          by_cases hvw : vs = ws
          · subst hvw
            simp [insertNode, searchNode, TrieNode.children, TrieNode.is_end, hl,
              lookup_setChild, searchNode_insertNode vs]
          · simp [insertNode, searchNode, TrieNode.children, TrieNode.is_end, hl,
              lookup_setChild, hvw, searchNode_insertNode vs]
      · cases hl : lookupChild ch a with
        | none =>
          cases hlc : lookupChild ch c with
          | none =>
            simp [insertNode, searchNode, TrieNode.children, hl, hlc, lookup_setChild, hac]
          | some other =>
            simp [insertNode, searchNode, TrieNode.children, hl, hlc, lookup_setChild, hac]
        | some child =>
          cases hlc : lookupChild ch c with
          | none =>
            simp [insertNode, searchNode, TrieNode.children, hl, hlc, lookup_setChild, hac]
          | some other =>
            simp [insertNode, searchNode, TrieNode.children, hl, hlc, lookup_setChild, hac]

theorem deleteNode_none_iff : ∀ (v : List Char) (nd : TrieNode),
    deleteNode nd v = none ↔ searchNode nd v = false
  | [], nd => by
    cases nd with
    | mk ch e =>
      cases e with
      | false => simp [deleteNode, searchNode, TrieNode.is_end]
      | true => simp [deleteNode, searchNode, TrieNode.is_end]
  | c :: vs, nd => by
    cases nd with
    | mk ch e =>
      cases hl : lookupChild ch c with
      | none => simp [deleteNode, searchNode, TrieNode.children, hl]
      | some child =>
        have hiff := deleteNode_none_iff vs child
        cases hd : deleteNode child vs with
        | none =>
          have hs : searchNode child vs = false := hiff.mp hd
          simp [deleteNode, searchNode, TrieNode.children, hl, hd, hs]
        | some r =>
          have hs : searchNode child vs = true := by
            rcases Bool.eq_false_or_eq_true (searchNode child vs) with h | h
            · exact h
            · rw [hiff.mpr h] at hd; exact Option.noConfusion hd
          simp [deleteNode, searchNode, TrieNode.children, hl, hd, hs]

theorem searchNode_deleteNode : ∀ (v : List Char) (nd r : TrieNode),
    deleteNode nd v = some r →
    ∀ w, searchNode r w = if v = w then false else searchNode nd w
  | [], nd, r, hdel, w => by
    cases nd with
    | mk ch e =>
      cases e with
      | false => simp [deleteNode, TrieNode.is_end] at hdel
      | true =>
        have hr : TrieNode.mk ch false = r := by
          simpa [deleteNode, TrieNode.is_end, TrieNode.children] using hdel
        subst hr
        cases w with
        | nil => simp [searchNode, TrieNode.is_end]
        | cons c ws =>
          cases hl : lookupChild ch c with
          | none => simp [searchNode, TrieNode.children, hl]
          | some child => simp [searchNode, TrieNode.children, hl]
  | a :: vs, nd, r, hdel, w => by
    cases nd with
    | mk ch e =>
      cases hl : lookupChild ch a with
      | none => simp [deleteNode, TrieNode.children, hl] at hdel
      | some child =>
        cases hd : deleteNode child vs with
        | none => simp [deleteNode, TrieNode.children, hl, hd] at hdel
        | some ch2 =>
          have hr : TrieNode.mk (setChild ch a ch2) e = r := by
            simpa [deleteNode, TrieNode.children, TrieNode.is_end, hl, hd] using hdel
          subst hr
          cases w with
          | nil => simp [searchNode, TrieNode.is_end]
          | cons c ws =>
            by_cases hac : a = c
            · subst hac
              by_cases hvw : vs = ws
              · subst hvw
                simp [searchNode, TrieNode.children, lookup_setChild,
                  searchNode_deleteNode vs child ch2 hd]
              · simp [searchNode, TrieNode.children, lookup_setChild, hvw, hl,
                  searchNode_deleteNode vs child ch2 hd]
            · cases hlc : lookupChild ch c with
              | none => simp [searchNode, TrieNode.children, lookup_setChild, hac, hlc]
              | some other => simp [searchNode, TrieNode.children, lookup_setChild, hac, hlc]

theorem search_insert (t : Trie) (v w : List Char) :
    (t.insert v).search w = if v = w then true else t.search w :=
  searchNode_insertNode v t.root w

theorem search_delete (t : Trie) (v w : List Char) :
    ((t.delete v).2).search w = if v = w then false else t.search w := by
  unfold Trie.delete
  cases h : deleteNode t.root v with
  | none =>
    show t.search w = _
    by_cases hvw : v = w
    · subst hvw
      rw [if_pos rfl]
      exact (deleteNode_none_iff v t.root).mp h
    · rw [if_neg hvw]
  | some r =>
    show searchNode r w = _
    exact searchNode_deleteNode v t.root r h w

theorem delete_fst (t : Trie) (w : List Char) : (t.delete w).1 = t.search w := by
  unfold Trie.delete
  cases h : deleteNode t.root w with
  | none =>
    show false = t.search w
    exact ((deleteNode_none_iff w t.root).mp h).symm
  | some r =>
    show true = t.search w
    have hs : searchNode t.root w = true := by
      rcases Bool.eq_false_or_eq_true (searchNode t.root w) with hb | hb
      · exact hb
      · rw [(deleteNode_none_iff w t.root).mpr hb] at h; exact Option.noConfusion h
    exact hs.symm

/-- Caller-visible mutating trie operations. -/
inductive TrieOp where
  | ins (w : List Char)
  | del (w : List Char)

def trieStep (t : Trie) (op : TrieOp) : Trie :=
  match op with
  | .ins w => t.insert w
  | .del w => (t.delete w).2

def runTrie (ops : List TrieOp) : Trie := ops.foldl trieStep Trie.construct

/-- Abstract contents of the trie after a trace, following the spec: a
word is present iff it was inserted at some point with no later delete of
it. -/
def absMemFrom (b : Bool) (ops : List TrieOp) (w : List Char) : Bool :=
  ops.foldl (fun acc op => match op with
    | .ins v => if v = w then true else acc
    | .del v => if v = w then false else acc) b

def absMem (ops : List TrieOp) (w : List Char) : Bool := absMemFrom false ops w

theorem search_construct (w : List Char) : Trie.construct.search w = false :=
  searchNode_nil_node w

theorem foldl_search : ∀ (ops : List TrieOp) (t : Trie) (w : List Char),
    (ops.foldl trieStep t).search w = absMemFrom (t.search w) ops w
  | [], _, _ => rfl
  | op :: ops, t, w => by
    show (ops.foldl trieStep (trieStep t op)).search w = _
    rw [foldl_search ops (trieStep t op) w]
    cases op with
    | ins v =>
      show absMemFrom ((t.insert v).search w) ops w
        = absMemFrom (if v = w then true else t.search w) ops w
      rw [search_insert]
    | del v =>
      show absMemFrom (((t.delete v).2).search w) ops w
        = absMemFrom (if v = w then false else t.search w) ops w
      rw [search_delete]

/-- C4 — Trie round-trip with frame condition: along any trace of inserts
and deletes from a fresh trie, `search w` is exactly membership in the
abstract set of words inserted and not since deleted.  Consequently a word
is found right after its insert, a delete of `w` makes `search w` false
while leaving `search` of every other word (shared prefixes included)
unchanged, and `delete` succeeds exactly on present words. -/
theorem trie_round_trip (ops : List TrieOp) (w : List Char) :
    ((runTrie ops).search w = absMem ops w) ∧
    ((runTrie (ops ++ [TrieOp.ins w])).search w = true) ∧
    (∀ w', w' ≠ w →
      (runTrie (ops ++ [TrieOp.del w])).search w' = (runTrie ops).search w') ∧
    ((runTrie (ops ++ [TrieOp.del w])).search w = false) ∧
    (((runTrie ops).delete w).1 = absMem ops w) := by
  have hmain : ∀ v, (runTrie ops).search v = absMem ops v := by
    intro v
    show (ops.foldl trieStep Trie.construct).search v = _
    rw [foldl_search ops Trie.construct v, search_construct]
    rfl
  have happ : ∀ op, runTrie (ops ++ [op]) = trieStep (runTrie ops) op := by
    intro op
    show (ops ++ [op]).foldl trieStep Trie.construct = _
    rw [List.foldl_append]
    rfl
  refine ⟨hmain w, ?_, ?_, ?_, ?_⟩
  · rw [happ]
    show ((runTrie ops).insert w).search w = true
    rw [search_insert, if_pos rfl]
  · intro w' hne
    rw [happ]
    show (((runTrie ops).delete w).2).search w' = _
    rw [search_delete, if_neg (fun h => hne h.symm)]
  · rw [happ]
    show (((runTrie ops).delete w).2).search w = false
    rw [search_delete, if_pos rfl]
  · rw [delete_fst]
    exact hmain w

theorem trie_round_trip_witness :
    (['h', 'e', 'l', 'p'] ≠ ['h', 'e', 'l', 'l', 'o']) ∧
    (runTrie ([TrieOp.ins ['h', 'e', 'l', 'l', 'o'], TrieOp.ins ['h', 'e', 'l', 'p']]
        ++ [TrieOp.del ['h', 'e', 'l', 'l', 'o']])).search ['h', 'e', 'l', 'p']
      = (runTrie [TrieOp.ins ['h', 'e', 'l', 'l', 'o'],
          TrieOp.ins ['h', 'e', 'l', 'p']]).search ['h', 'e', 'l', 'p'] :=
  ⟨by decide,
    (trie_round_trip [TrieOp.ins ['h', 'e', 'l', 'l', 'o'], TrieOp.ins ['h', 'e', 'l', 'p']]
      ['h', 'e', 'l', 'l', 'o']).2.2.1 ['h', 'e', 'l', 'p'] (by decide)⟩

/-! ### Skip list: the `SkipList` / `SkipNode` classes of `src/skip_list.py`.

Nodes are kept in an arena (`arena`, in creation order) and referred to by
their index; a Python node reference is either the header sentinel or an
arena index (`NodeRef`), and a `forward` slot is `Option Nat` (`none` is
Python's `None`).  The header's key (`float('-inf')`) is never read — the
scan conditions only read keys of forward targets, which are always data
nodes — so it needs no representation.  `random.random() < self.p` draws
are modelled as a list of booleans handed to `insert`, so theorems
quantify over every possible sequence of height draws.  The pointer-walk
`while` loops take `arena.length + 1` fuel; the chain invariant proved
below shows the walked chains are duplicate-free lists of arena indices,
so this fuel is never exhausted and the translation is exact (a cyclic
chain would make the Python loop run forever, and no reachable state has
one). -/

structure SkipNode where
  key : Int
  forward : List (Option Nat)
deriving DecidableEq

structure SkipList where
  max_level : Nat
  level : Nat
  size : Nat
  headerForward : List (Option Nat)
  arena : List SkipNode
deriving DecidableEq

inductive NodeRef where
  | header
  | node (i : Nat)
deriving DecidableEq

/-- `__init__(max_level, p)`: header with `max_level + 1` empty forward
slots, level 0, size 0 (`p` only drives the random draws). -/
def SkipList.construct (maxL : Nat) : SkipList :=
  ⟨maxL, 0, 0, List.replicate (maxL + 1) none, []⟩

def SkipList.nodeAt (S : SkipList) (i : Nat) : SkipNode := S.arena.getD i ⟨0, []⟩

def SkipList.keyAt (S : SkipList) (i : Nat) : Int := (S.nodeAt i).key

/-- Number of forward slots of node `i` (its level plus one). -/
def SkipList.heightAt (S : SkipList) (i : Nat) : Nat := (S.nodeAt i).forward.length

/-- `r.forward[lvl]` — reading a forward slot of the header or a node. -/
def SkipList.fwd (S : SkipList) (r : NodeRef) (lvl : Nat) : Option Nat :=
  match r with
  | .header => S.headerForward.getD lvl none
  | .node i => (S.nodeAt i).forward.getD lvl none

/-- `r.forward[lvl] = p` — writing a forward slot. -/
def SkipList.setFwd (S : SkipList) (r : NodeRef) (lvl : Nat) (p : Option Nat) : SkipList :=
  match r with
  | .header => { S with headerForward := S.headerForward.set lvl p }
  | .node i =>
    { S with arena := S.arena.set i ⟨(S.nodeAt i).key, (S.nodeAt i).forward.set lvl p⟩ }

/-- `_random_level`: count leading successful draws, capped at
`max_level` (each list entry is one `random.random() < self.p` outcome;
an exhausted list means the remaining draws failed). -/
def randomLevelLoop (maxL : Nat) : Nat → List Bool → Nat
  | lvl, [] => lvl
  | lvl, d :: ds => if d ∧ lvl < maxL then randomLevelLoop maxL (lvl + 1) ds else lvl

def random_level (maxL : Nat) (ds : List Bool) : Nat := randomLevelLoop maxL 0 ds

/-- One level's `while current.forward[i] and current.forward[i].key < key`
loop, with fuel. -/
def walk (S : SkipList) (lvl : Nat) (key : Int) : NodeRef → Nat → NodeRef
  | r, 0 => r
  | r, fuel + 1 =>
    match S.fwd r lvl with
    | none => r
    | some n => if S.keyAt n < key then walk S lvl key (.node n) fuel else r

/-- The levels `hi, hi - 1, ..., lo` of the descent's `for i in
range(self.level, -1, -1)`. -/
def levelsDown (hi lo : Nat) : List Nat := (List.range' lo (hi + 1 - lo)).reverse

def descendLevels (S : SkipList) (key : Int) : NodeRef → List Nat → NodeRef
  | r, [] => r
  | r, i :: rest => descendLevels S key (walk S i key r (S.arena.length + 1)) rest

/-- The descent's cursor after processing levels `self.level` down to `i`
(the "update vector" entry `update[i]` just before level `i - 1` is
processed; `update[i] = header` for `i` above the active level, as
`insert` initialises those entries). -/
def stops (S : SkipList) (key : Int) (i : Nat) : NodeRef :=
  if i ≤ S.level then descendLevels S key .header (levelsDown S.level i) else .header

/-- `insert(key)` with an explicit draw sequence: compute the update
vector, sample the height, create the node (its forward slots copied from
the update vector's targets), then rewire `update[i].forward[i]` for
every participating level.  All reads are against the pre-state, as in
the source (the per-level writes touch pairwise distinct slots). -/
def SkipList.insert (S : SkipList) (key : Int) (draws : List Bool) : SkipList :=
  let nl := random_level S.max_level draws
  let newIdx := S.arena.length
  let newNode : SkipNode :=
    ⟨key, (List.range (nl + 1)).map (fun i => S.fwd (stops S key i) i)⟩
  let S1 : SkipList :=
    { S with arena := S.arena ++ [newNode],
             level := max S.level nl,
             size := S.size + 1 }
  (List.range (nl + 1)).foldl (fun T i => T.setFwd (stops S key i) i (some newIdx)) S1

/-- `search(key)`: step once at level 0 from the descent's end; found iff
that node exists and its key is exactly `key`. -/
def SkipList.search (S : SkipList) (key : Int) : Bool :=
  match S.fwd (stops S key 0) 0 with
  | none => false
  | some n => decide (S.keyAt n = key)

/-- `delete`'s rewiring loop `for i in range(self.level + 1)`: stop at the
first level whose predecessor no longer points at the matched node,
otherwise bypass it.  The update vector and the matched node are those of
the pre-state `S`; reads go against the threaded state `T` as in the
source. -/
def rewireLoop (S : SkipList) (key : Int) (n : Nat) (lim : Nat) : Nat → SkipList → SkipList
  | i, T =>
    if h : i ≤ lim then
      if T.fwd (stops S key i) i ≠ some n then T
      else rewireLoop S key n lim (i + 1)
        (T.setFwd (stops S key i) i ((T.nodeAt n).forward.getD i none))
    else T
termination_by i => lim + 1 - i
decreasing_by omega

/-- `delete`'s `while self.level > 0 and self.header.forward[self.level]
is None: self.level -= 1`. -/
def shrinkLoop (S : SkipList) : SkipList :=
  if h : 0 < S.level ∧ S.headerForward.getD S.level none = none then
    shrinkLoop { S with level := S.level - 1 }
  else S
termination_by S.level
decreasing_by omega

/-- `delete(key)`. -/
def SkipList.delete (S : SkipList) (key : Int) : Bool × SkipList :=
  match S.fwd (stops S key 0) 0 with
  | none => (false, S)
  | some n =>
    if S.keyAt n = key then
      let T := rewireLoop S key n S.level 0 S
      let T2 := shrinkLoop T
      (true, { T2 with size := T2.size - 1 })
    else (false, S)

/-- Walk a forward chain, collecting the visited arena indices. -/
def collectChain (S : SkipList) (lvl : Nat) : Option Nat → Nat → List Nat
  | _, 0 => []
  | none, _ => []
  | some n, fuel + 1 => n :: collectChain S lvl (S.fwd (.node n) lvl) fuel

/-- The pointer `p` heads the finite, `none`-terminated level-`lvl` chain
whose nodes are exactly `L` in order. -/
def ChainFrom (S : SkipList) (lvl : Nat) : Option Nat → List Nat → Prop
  | p, [] => p = none
  | p, n :: L => p = some n ∧ n < S.arena.length ∧ ChainFrom S lvl (S.fwd (.node n) lvl) L

/-- The level-0 node list of `S`, read off by walking the chain. -/
def keys0 (S : SkipList) : List Int :=
  (collectChain S 0 (S.fwd .header 0) (S.arena.length + 1)).map S.keyAt

theorem randomLevelLoop_le (maxL : Nat) : ∀ (ds : List Bool) (lvl : Nat),
    lvl ≤ maxL → randomLevelLoop maxL lvl ds ≤ maxL
  | [], _, h => h
  | d :: ds, lvl, h => by
    show (if d ∧ lvl < maxL then randomLevelLoop maxL (lvl + 1) ds else lvl) ≤ maxL
    by_cases hc : d ∧ lvl < maxL
    · rw [if_pos hc]
      exact randomLevelLoop_le maxL ds (lvl + 1) (by omega)
    · rw [if_neg hc]
      exact h

theorem random_level_le (maxL : Nat) (ds : List Bool) : random_level maxL ds ≤ maxL :=
  randomLevelLoop_le maxL ds 0 (Nat.zero_le _)

theorem getD_set_self' {α : Type} (t : List α) (m : Nat) (v d : α) (h : m < t.length) :
    (t.set m v).getD m d = v := by
  simp [List.getD_eq_getElem?_getD, List.getElem?_set_self', List.getElem?_eq_getElem h]

theorem getD_set_ne' {α : Type} (t : List α) (m k : Nat) (v d : α) (h : m ≠ k) :
    (t.set m v).getD k d = t.getD k d := by
  simp [List.getD_eq_getElem?_getD, List.getElem?_set_ne h]

theorem setFwd_level (S : SkipList) (r : NodeRef) (lvl : Nat) (p : Option Nat) :
    (S.setFwd r lvl p).level = S.level := by
  cases r <;> rfl

theorem setFwd_size (S : SkipList) (r : NodeRef) (lvl : Nat) (p : Option Nat) :
    (S.setFwd r lvl p).size = S.size := by
  cases r <;> rfl

theorem setFwd_max_level (S : SkipList) (r : NodeRef) (lvl : Nat) (p : Option Nat) :
    (S.setFwd r lvl p).max_level = S.max_level := by
  cases r <;> rfl

theorem setFwd_arena_length (S : SkipList) (r : NodeRef) (lvl : Nat) (p : Option Nat) :
    (S.setFwd r lvl p).arena.length = S.arena.length := by
  cases r with
  | header => rfl
  | node j => simp [SkipList.setFwd]

theorem setFwd_headerForward_length (S : SkipList) (r : NodeRef) (lvl : Nat) (p : Option Nat) :
    (S.setFwd r lvl p).headerForward.length = S.headerForward.length := by
  cases r with
  | header => simp [SkipList.setFwd]
  | node j => rfl

theorem setFwd_keyAt (S : SkipList) (r : NodeRef) (lvl : Nat) (p : Option Nat) (i : Nat) :
    (S.setFwd r lvl p).keyAt i = S.keyAt i := by
  cases r with
  | header => rfl
  | node j =>
    show SkipList.keyAt { S with arena := S.arena.set j _ } i = _
    unfold SkipList.keyAt SkipList.nodeAt
    rcases lt_or_ge j S.arena.length with hj | hj
    · by_cases hij : j = i
      · subst hij
        rw [getD_set_self' _ _ _ _ hj]
      · rw [getD_set_ne' _ _ _ _ _ hij]
    · rw [List.set_eq_of_length_le (by omega)]

theorem setFwd_heightAt (S : SkipList) (r : NodeRef) (lvl : Nat) (p : Option Nat) (i : Nat) :
    (S.setFwd r lvl p).heightAt i = S.heightAt i := by
  cases r with
  | header => rfl
  | node j =>
    show SkipList.heightAt { S with arena := S.arena.set j _ } i = _
    unfold SkipList.heightAt SkipList.nodeAt
    rcases lt_or_ge j S.arena.length with hj | hj
    · by_cases hij : j = i
      · subst hij
        rw [getD_set_self' _ _ _ _ hj]
        simp
      · rw [getD_set_ne' _ _ _ _ _ hij]
    · rw [List.set_eq_of_length_le (by omega)]

/-- A forward slot that physically exists. -/
def slotOk (S : SkipList) (r : NodeRef) (lvl : Nat) : Prop :=
  match r with
  | .header => lvl < S.headerForward.length
  | .node j => j < S.arena.length ∧ lvl < S.heightAt j

theorem fwd_setFwd_same (S : SkipList) (r0 : NodeRef) (lvl0 : Nat) (p : Option Nat)
    (h : slotOk S r0 lvl0) : (S.setFwd r0 lvl0 p).fwd r0 lvl0 = p := by
  cases r0 with
  | header =>
    show (S.headerForward.set lvl0 p).getD lvl0 none = p
    exact getD_set_self' _ _ _ _ h
  | node j =>
    obtain ⟨hj, hlvl⟩ := h
    show ((S.arena.set j ⟨(S.nodeAt j).key, (S.nodeAt j).forward.set lvl0 p⟩).getD j
      ⟨0, []⟩).forward.getD lvl0 none = p
    rw [getD_set_self' _ _ _ _ hj]
    exact getD_set_self' _ _ _ _ hlvl

theorem fwd_setFwd_other (S : SkipList) (r0 : NodeRef) (lvl0 : Nat) (p : Option Nat)
    (r : NodeRef) (lvl : Nat) (h : ¬ (r = r0 ∧ lvl = lvl0)) :
    (S.setFwd r0 lvl0 p).fwd r lvl = S.fwd r lvl := by
  cases r0 with
  | header =>
    cases r with
    | header =>
      have hlvl : lvl ≠ lvl0 := fun he => h ⟨rfl, he⟩
      show (S.headerForward.set lvl0 p).getD lvl none = _
      exact getD_set_ne' _ _ _ _ _ (fun he => hlvl he.symm)
    | node i => rfl
  | node j =>
    cases r with
    | header => rfl
    | node i =>
      show ((S.arena.set j _).getD i ⟨0, []⟩).forward.getD lvl none = _
      by_cases hij : j = i
      · subst hij
        have hlvl : lvl ≠ lvl0 := fun he => h ⟨rfl, he⟩
        rcases lt_or_ge j S.arena.length with hj | hj
        · rw [getD_set_self' _ _ _ _ hj]
          show ((S.nodeAt j).forward.set lvl0 p).getD lvl none = _
          exact getD_set_ne' _ _ _ _ _ (fun he => hlvl he.symm)
        · rw [List.set_eq_of_length_le (by omega)]
          rfl
      · rw [getD_set_ne' _ _ _ _ _ hij]
        rfl

/-- The node reference at the end of a walked segment (`r` itself when the
segment is empty). -/
def lastRef (r : NodeRef) : List Nat → NodeRef
  | [] => r
  | n :: L => lastRef (.node n) L

theorem lastRef_append (Y : List Nat) : ∀ (r : NodeRef) (X : List Nat),
    lastRef r (X ++ Y) = lastRef (lastRef r X) Y := by
  intro r X
  induction X generalizing r with
  | nil => rfl
  | cons x X ih => exact ih (.node x)

theorem chainFrom_mem_lt (S : SkipList) (lvl : Nat) : ∀ (L : List Nat) (p : Option Nat),
    ChainFrom S lvl p L → ∀ n ∈ L, n < S.arena.length
  | [], _, _, n, hn => absurd hn (List.not_mem_nil n)
  | m :: L, p, ⟨_, hb, hrest⟩, n, hn => by
    rcases List.mem_cons.mp hn with h | h
    · subst h; exact hb
    · exact chainFrom_mem_lt S lvl L _ hrest n h

theorem chainFrom_collect (S : SkipList) (lvl : Nat) : ∀ (L : List Nat) (p : Option Nat),
    ChainFrom S lvl p L → ∀ fuel, L.length ≤ fuel → collectChain S lvl p fuel = L
  | [], p, hp, fuel, _ => by
    have : p = none := hp
    subst this
    cases fuel <;> rfl
  | n :: L, p, ⟨hp, _, hrest⟩, fuel, hf => by
    subst hp
    obtain ⟨f, rfl⟩ : ∃ f, fuel = f + 1 := ⟨fuel - 1, by simp at hf; omega⟩
    show n :: collectChain S lvl (S.fwd (.node n) lvl) f = n :: L
    rw [chainFrom_collect S lvl L _ hrest f (by simp at hf; omega)]

theorem chainFrom_length_le (S : SkipList) (lvl : Nat) (L : List Nat) (p : Option Nat)
    (hc : ChainFrom S lvl p L) (hnd : L.Nodup) : L.length ≤ S.arena.length := by
  have hsub : L.toFinset ⊆ Finset.range S.arena.length := by
    intro n hn
    rw [Finset.mem_range]
    exact chainFrom_mem_lt S lvl L p hc n (List.mem_toFinset.mp hn)
  have := Finset.card_le_card hsub
  rwa [List.toFinset_card_of_nodup hnd, Finset.card_range] at this

theorem chainFrom_split (S : SkipList) (lvl : Nat) : ∀ (X Y : List Nat) (r : NodeRef),
    ChainFrom S lvl (S.fwd r lvl) (X ++ Y) →
    ChainFrom S lvl (S.fwd (lastRef r X) lvl) Y
  | [], _, _, h => h
  | x :: X, Y, r, ⟨_, _, hrest⟩ => chainFrom_split S lvl X Y (.node x) hrest

theorem walk_spec (S : SkipList) (lvl : Nat) (k : Int) :
    ∀ (M : List Nat) (B2 : List Nat) (r : NodeRef) (fuel : Nat),
    ChainFrom S lvl (S.fwd r lvl) (M ++ B2) →
    (∀ m ∈ M, S.keyAt m < k) →
    (∀ b B2', B2 = b :: B2' → ¬ S.keyAt b < k) →
    M.length < fuel →
    walk S lvl k r fuel = lastRef r M
  | [], B2, r, fuel, hchain, _, hB, hfuel => by
    obtain ⟨f, rfl⟩ : ∃ f, fuel = f + 1 := ⟨fuel - 1, by omega⟩
    show (match S.fwd r lvl with
      | none => r
      | some n => if S.keyAt n < k then walk S lvl k (.node n) f else r) = r
    cases B2 with
    | nil =>
      have : S.fwd r lvl = none := hchain
      rw [this]
    | cons b B2' =>
      have hp : S.fwd r lvl = some b := hchain.1
      rw [hp]
      simp only [if_neg (hB b B2' rfl)]
  | m :: M, B2, r, fuel, hchain, hM, hB, hfuel => by
    obtain ⟨f, rfl⟩ : ∃ f, fuel = f + 1 := ⟨fuel - 1, by omega⟩
    obtain ⟨hp, _, hrest⟩ := hchain
    show (match S.fwd r lvl with
      | none => r
      | some n => if S.keyAt n < k then walk S lvl k (.node n) f else r) = _
    rw [hp]
    simp only [if_pos (hM m (List.mem_cons_self _ _))]
    exact walk_spec S lvl k M B2 (.node m) f hrest
      (fun x hx => hM x (List.mem_cons_of_mem _ hx)) hB (by simp at hfuel; omega)

theorem levelsDown_succ (hi lo : Nat) (h : lo ≤ hi) :
    levelsDown hi lo = levelsDown hi (lo + 1) ++ [lo] := by
  unfold levelsDown
  have h1 : hi + 1 - lo = (hi + 1 - (lo + 1)) + 1 := by omega
  rw [h1, List.range'_succ, List.reverse_cons]

theorem levelsDown_nil (hi lo : Nat) (h : hi < lo) : levelsDown hi lo = [] := by
  unfold levelsDown
  have : hi + 1 - lo = 0 := by omega
  rw [this]
  rfl

theorem descendLevels_append (S : SkipList) (k : Int) :
    ∀ (xs ys : List Nat) (r : NodeRef),
    descendLevels S k r (xs ++ ys) = descendLevels S k (descendLevels S k r xs) ys
  | [], _, _ => rfl
  | x :: xs, ys, r => descendLevels_append S k xs ys (walk S x k r (S.arena.length + 1))

theorem stops_rec (S : SkipList) (k : Int) (i : Nat) (h : i ≤ S.level) :
    stops S k i = walk S i k (stops S k (i + 1)) (S.arena.length + 1) := by
  unfold stops
  rw [if_pos h, levelsDown_succ _ _ h, descendLevels_append]
  by_cases h2 : i + 1 ≤ S.level
  · rw [if_pos h2]
    rfl
  · rw [if_neg h2]
    have hi : i = S.level := by omega
    subst hi
    rw [levelsDown_nil _ _ (by omega)]
    rfl

theorem stops_top (S : SkipList) (k : Int) (i : Nat) (h : S.level < i) :
    stops S k i = .header := by
  unfold stops
  rw [if_neg (by omega)]

/-- The chain invariant (spec §3): some duplicate-free node list `L`, with
keys non-decreasing, counts `size`, heights within the active level, and —
for every level `i` — the level-`i` chain from the header traversing
exactly the nodes of `L` tall enough to participate. -/
structure Chains (S : SkipList) (L : List Nat) : Prop where
  bound : ∀ n ∈ L, n < S.arena.length
  nodup : L.Nodup
  len : L.length = S.size
  sorted : (L.map S.keyAt).Sorted (· ≤ ·)
  hle : ∀ n ∈ L, S.heightAt n ≤ S.level + 1
  hpos : ∀ n ∈ L, 1 ≤ S.heightAt n
  chain : ∀ i, i ≤ S.max_level →
    ChainFrom S i (S.fwd .header i) (L.filter (fun n => decide (i < S.heightAt n)))

/-- Well-formedness of a skip list state. -/
structure SLInv (S : SkipList) : Prop where
  hlen : S.headerForward.length = S.max_level + 1
  lvlLe : S.level ≤ S.max_level
  ex : ∃ L, Chains S L

theorem lastRef_concat (r : NodeRef) (Y : List Nat) (x : Nat) :
    lastRef r (Y ++ [x]) = .node x := by
  rw [lastRef_append]
  rfl

theorem subfilter_split (q : Nat → Bool) (X : List Nat) :
    ∃ X1 X2 : List Nat, X = X1 ++ X2 ∧
      (∀ r, lastRef r (X.filter q) = lastRef r X1) ∧ X2.filter q = [] := by
  induction X using List.reverseRecOn with
  | nil => exact ⟨[], [], rfl, fun _ => rfl, rfl⟩
  | append_singleton X' x ih =>
    obtain ⟨X1, X2, he, hlast, hfil⟩ := ih
    by_cases hq : q x
    · refine ⟨X' ++ [x], [], (List.append_nil _).symm, ?_, rfl⟩
      intro r
      have hx : List.filter q [x] = [x] := by simp [hq]
      rw [List.filter_append, hx, lastRef_concat, lastRef_concat]
    · refine ⟨X1, X2 ++ [x], by rw [← List.append_assoc, ← he], ?_, ?_⟩
      · intro r
        rw [List.filter_append]
        have : List.filter q [x] = [] := by simp [hq]
        rw [this, List.append_nil]
        exact hlast r
      · rw [List.filter_append]
        have : List.filter q [x] = [] := by simp [hq]
        rw [this, List.append_nil, hfil]

theorem filter_height_step (S : SkipList) (i : Nat) (A : List Nat) :
    (A.filter (fun n => decide (i < S.heightAt n))).filter
        (fun n => decide (i + 1 < S.heightAt n))
      = A.filter (fun n => decide (i + 1 < S.heightAt n)) := by
  rw [List.filter_filter]
  apply List.filter_congr
  intro n _
  by_cases h : i + 1 < S.heightAt n
  · have h2 : i < S.heightAt n := by omega
    simp [h, h2]
  · simp [h]

theorem stops_spec (S : SkipList) (L A B : List Nat) (k : Int) (hc : Chains S L)
    (hlvl : S.level ≤ S.max_level) (hAB : L = A ++ B)
    (hA : ∀ a ∈ A, S.keyAt a < k) (hB : ∀ b ∈ B, ¬ S.keyAt b < k) :
    ∀ i, stops S k i = lastRef .header (A.filter (fun n => decide (i < S.heightAt n))) := by
  have htop : ∀ i, S.level < i →
      stops S k i = lastRef .header (A.filter (fun n => decide (i < S.heightAt n))) := by
    intro i h1
    rw [stops_top S k i h1]
    have hfil : A.filter (fun n => decide (i < S.heightAt n)) = [] := by
      rw [List.filter_eq_nil]
      intro n hn
      have hnL : n ∈ L := by rw [hAB]; exact List.mem_append_left _ hn
      have := hc.hle n hnL
      simp only [decide_eq_true_eq]
      omega
    rw [hfil]
    rfl
  have main : ∀ (d i : Nat), S.level + 1 - i ≤ d →
      stops S k i = lastRef .header (A.filter (fun n => decide (i < S.heightAt n))) := by
    intro d
    induction d with
    | zero => intro i hi; exact htop i (by omega)
    | succ d ih =>
      intro i hi
      by_cases hile : i ≤ S.level
      · rw [stops_rec S k i hile, ih (i + 1) (by omega)]
        obtain ⟨X1, X2, heX, hlast, hfil2⟩ :=
          subfilter_split (fun n => decide (i + 1 < S.heightAt n))
            (A.filter (fun n => decide (i < S.heightAt n)))
        rw [← filter_height_step S i A, hlast .header]
        have hchain := hc.chain i (by omega)
        rw [hAB, List.filter_append, heX, List.append_assoc] at hchain
        have hsplit := chainFrom_split S i X1
          (X2 ++ B.filter (fun n => decide (i < S.heightAt n))) .header hchain
        have hndchain : (X1 ++ (X2 ++ B.filter (fun n => decide (i < S.heightAt n)))).Nodup := by
          have : ((A ++ B).filter (fun n => decide (i < S.heightAt n))).Nodup :=
            (hAB ▸ hc.nodup).filter _
          rw [List.filter_append, heX, List.append_assoc] at this
          exact this
        have hchlen := chainFrom_length_le S i _ _ hchain hndchain
        rw [walk_spec S i k X2 (B.filter (fun n => decide (i < S.heightAt n)))
          (lastRef .header X1) (S.arena.length + 1) hsplit ?hm ?hb ?hf]
        · rw [← lastRef_append, ← heX]
        case hm =>
          intro m hm
          have : m ∈ A.filter (fun n => decide (i < S.heightAt n)) := by
            rw [heX]
            exact List.mem_append_right _ hm
          exact hA m (List.mem_of_mem_filter this)
        case hb =>
          intro b B2' hbB
          have : b ∈ B.filter (fun n => decide (i < S.heightAt n)) := by
            rw [hbB]
            exact List.mem_cons_self _ _
          exact hB b (List.mem_of_mem_filter this)
        case hf =>
          have : X2.length ≤ (X1 ++ (X2 ++ B.filter (fun n => decide (i < S.heightAt n)))).length := by
            simp only [List.length_append]
            omega
          omega
      · exact htop i (by omega)
  intro i
  exact main (S.level + 1 - i) i le_rfl

/-- After the full descent, the forward chain hanging from `update[i]` at
level `i` is exactly the `≥ k` part of the level-`i` chain. -/
theorem stops_chain (S : SkipList) (L A B : List Nat) (k : Int) (hc : Chains S L)
    (hlvl : S.level ≤ S.max_level) (hAB : L = A ++ B)
    (hA : ∀ a ∈ A, S.keyAt a < k) (hB : ∀ b ∈ B, ¬ S.keyAt b < k) :
    ∀ i, i ≤ S.max_level →
      ChainFrom S i (S.fwd (stops S k i) i)
        (B.filter (fun n => decide (i < S.heightAt n))) := by
  intro i hi
  rw [stops_spec S L A B k hc hlvl hAB hA hB i]
  have hchain := hc.chain i hi
  rw [hAB, List.filter_append] at hchain
  exact chainFrom_split S i _ _ .header hchain

theorem slotOk_setFwd (T : SkipList) (r0 : NodeRef) (lvl0 : Nat) (p : Option Nat)
    (r : NodeRef) (lvl : Nat) (h : slotOk T r lvl) : slotOk (T.setFwd r0 lvl0 p) r lvl := by
  cases r with
  | header =>
    show lvl < (T.setFwd r0 lvl0 p).headerForward.length
    rw [setFwd_headerForward_length]
    exact h
  | node j =>
    obtain ⟨h1, h2⟩ := h
    exact ⟨by rw [setFwd_arena_length]; exact h1, by rw [setFwd_heightAt]; exact h2⟩

theorem foldl_setFwd_arena_length (upd : Nat → NodeRef) (v : Option Nat) :
    ∀ (js : List Nat) (T : SkipList),
      (js.foldl (fun T j => T.setFwd (upd j) j v) T).arena.length = T.arena.length
  | [], _ => rfl
  | j :: js, T => by
    rw [List.foldl_cons, foldl_setFwd_arena_length upd v js, setFwd_arena_length]

theorem foldl_setFwd_headerForward_length (upd : Nat → NodeRef) (v : Option Nat) :
    ∀ (js : List Nat) (T : SkipList),
      (js.foldl (fun T j => T.setFwd (upd j) j v) T).headerForward.length
        = T.headerForward.length
  | [], _ => rfl
  | j :: js, T => by
    rw [List.foldl_cons, foldl_setFwd_headerForward_length upd v js, setFwd_headerForward_length]

theorem foldl_setFwd_level (upd : Nat → NodeRef) (v : Option Nat) :
    ∀ (js : List Nat) (T : SkipList),
      (js.foldl (fun T j => T.setFwd (upd j) j v) T).level = T.level
  | [], _ => rfl
  | j :: js, T => by
    rw [List.foldl_cons, foldl_setFwd_level upd v js, setFwd_level]

theorem foldl_setFwd_size (upd : Nat → NodeRef) (v : Option Nat) :
    ∀ (js : List Nat) (T : SkipList),
      (js.foldl (fun T j => T.setFwd (upd j) j v) T).size = T.size
  | [], _ => rfl
  | j :: js, T => by
    rw [List.foldl_cons, foldl_setFwd_size upd v js, setFwd_size]

theorem foldl_setFwd_max_level (upd : Nat → NodeRef) (v : Option Nat) :
    ∀ (js : List Nat) (T : SkipList),
      (js.foldl (fun T j => T.setFwd (upd j) j v) T).max_level = T.max_level
  | [], _ => rfl
  | j :: js, T => by
    rw [List.foldl_cons, foldl_setFwd_max_level upd v js, setFwd_max_level]

theorem foldl_setFwd_keyAt (upd : Nat → NodeRef) (v : Option Nat) :
    ∀ (js : List Nat) (T : SkipList) (i : Nat),
      (js.foldl (fun T j => T.setFwd (upd j) j v) T).keyAt i = T.keyAt i
  | [], _, _ => rfl
  | j :: js, T, i => by
    rw [List.foldl_cons, foldl_setFwd_keyAt upd v js, setFwd_keyAt]

theorem foldl_setFwd_heightAt (upd : Nat → NodeRef) (v : Option Nat) :
    ∀ (js : List Nat) (T : SkipList) (i : Nat),
      (js.foldl (fun T j => T.setFwd (upd j) j v) T).heightAt i = T.heightAt i
  | [], _, _ => rfl
  | j :: js, T, i => by
    rw [List.foldl_cons, foldl_setFwd_heightAt upd v js, setFwd_heightAt]

theorem fwd_foldl_setFwd (upd : Nat → NodeRef) (v : Option Nat) :
    ∀ (js : List Nat) (T : SkipList),
      (∀ j ∈ js, slotOk T (upd j) j) →
      ∀ (r : NodeRef) (lvl : Nat),
      (js.foldl (fun T j => T.setFwd (upd j) j v) T).fwd r lvl
        = if lvl ∈ js ∧ r = upd lvl then v else T.fwd r lvl
  | [], T, _, r, lvl => by simp
  | j :: js, T, hok, r, lvl => by
    rw [List.foldl_cons,
      fwd_foldl_setFwd upd v js _
        (fun j' hj' => slotOk_setFwd _ _ _ _ _ _ (hok j' (List.mem_cons_of_mem _ hj')))]
    by_cases h1 : lvl ∈ js ∧ r = upd lvl
    · rw [if_pos h1, if_pos ⟨List.mem_cons_of_mem _ h1.1, h1.2⟩]
    · rw [if_neg h1]
      by_cases h2 : r = upd j ∧ lvl = j
      · obtain ⟨hr, hl⟩ := h2
        subst hl
        subst hr
        rw [fwd_setFwd_same T (upd lvl) lvl v (hok lvl (List.mem_cons_self _ _))]
        rw [if_pos ⟨List.mem_cons_self _ _, rfl⟩]
      · rw [fwd_setFwd_other T (upd j) j v r lvl h2]
        have hno : ¬ (lvl ∈ j :: js ∧ r = upd lvl) := by
          rintro ⟨hmem, hru⟩
          rcases List.mem_cons.mp hmem with he | hm
          · subst he
            exact h2 ⟨hru, rfl⟩
          · exact h1 ⟨hm, hru⟩
        rw [if_neg hno]

theorem append_keyAt (S : SkipList) (nd : SkipNode) (lvl : Nat) (sz : Nat) (n : Nat)
    (h : n < S.arena.length) :
    SkipList.keyAt { S with arena := S.arena ++ [nd], level := lvl, size := sz } n
      = S.keyAt n := by
  unfold SkipList.keyAt SkipList.nodeAt
  simp only
  rw [List.getD_eq_getElem?_getD, List.getElem?_append_left h, ← List.getD_eq_getElem?_getD]

theorem append_keyAt_new (S : SkipList) (nd : SkipNode) (lvl : Nat) (sz : Nat) :
    SkipList.keyAt { S with arena := S.arena ++ [nd], level := lvl, size := sz }
      S.arena.length = nd.key := by
  unfold SkipList.keyAt SkipList.nodeAt
  simp only
  rw [List.getD_eq_getElem?_getD, List.getElem?_append_right (le_refl _)]
  simp

theorem append_heightAt (S : SkipList) (nd : SkipNode) (lvl : Nat) (sz : Nat) (n : Nat)
    (h : n < S.arena.length) :
    SkipList.heightAt { S with arena := S.arena ++ [nd], level := lvl, size := sz } n
      = S.heightAt n := by
  unfold SkipList.heightAt SkipList.nodeAt
  simp only
  rw [List.getD_eq_getElem?_getD, List.getElem?_append_left h, ← List.getD_eq_getElem?_getD]

theorem append_heightAt_new (S : SkipList) (nd : SkipNode) (lvl : Nat) (sz : Nat) :
    SkipList.heightAt { S with arena := S.arena ++ [nd], level := lvl, size := sz }
      S.arena.length = nd.forward.length := by
  unfold SkipList.heightAt SkipList.nodeAt
  simp only
  rw [List.getD_eq_getElem?_getD, List.getElem?_append_right (le_refl _)]
  simp

theorem append_nodeAt (S : SkipList) (nd : SkipNode) (lvl : Nat) (sz : Nat) (n : Nat)
    (h : n < S.arena.length) :
    SkipList.nodeAt { S with arena := S.arena ++ [nd], level := lvl, size := sz } n
      = S.nodeAt n := by
  unfold SkipList.nodeAt
  simp only
  rw [List.getD_eq_getElem?_getD, List.getElem?_append_left h, ← List.getD_eq_getElem?_getD]

theorem append_nodeAt_new (S : SkipList) (nd : SkipNode) (lvl : Nat) (sz : Nat) :
    SkipList.nodeAt { S with arena := S.arena ++ [nd], level := lvl, size := sz }
      S.arena.length = nd := by
  unfold SkipList.nodeAt
  simp only
  rw [List.getD_eq_getElem?_getD, List.getElem?_append_right (le_refl _)]
  simp

theorem append_fwd_node (S : SkipList) (nd : SkipNode) (lvl : Nat) (sz : Nat) (n : Nat)
    (h : n < S.arena.length) (j : Nat) :
    SkipList.fwd { S with arena := S.arena ++ [nd], level := lvl, size := sz } (.node n) j
      = S.fwd (.node n) j := by
  show (SkipList.nodeAt _ n).forward.getD j none = _
  rw [append_nodeAt S nd lvl sz n h]
  rfl

theorem append_fwd_new (S : SkipList) (nd : SkipNode) (lvl : Nat) (sz : Nat) (j : Nat) :
    SkipList.fwd { S with arena := S.arena ++ [nd], level := lvl, size := sz }
      (.node S.arena.length) j = nd.forward.getD j none := by
  show (SkipList.nodeAt _ S.arena.length).forward.getD j none = _
  rw [append_nodeAt_new S nd lvl sz]

theorem append_fwd_header (S : SkipList) (nd : SkipNode) (lvl : Nat) (sz : Nat) (j : Nat) :
    SkipList.fwd { S with arena := S.arena ++ [nd], level := lvl, size := sz } .header j
      = S.fwd .header j := rfl

theorem getD_map_range {α : Type} (f : Nat → α) (n i : Nat) (d : α) (h : i < n) :
    ((List.range n).map f).getD i d = f i := by
  rw [List.getD_eq_getElem?_getD, List.getElem?_map, List.getElem?_range h]
  rfl

theorem getD_map_range_oob {α : Type} (f : Nat → α) (n i : Nat) (d : α) (h : n ≤ i) :
    ((List.range n).map f).getD i d = d := by
  rw [List.getD_eq_getElem?_getD, List.getElem?_map]
  have : (List.range n)[i]? = none := by
    rw [List.getElem?_eq_none]
    simpa using h
  rw [this]
  rfl

theorem lastRef_mem : ∀ (X : List Nat) (x : Nat),
    lastRef (.node x) X ∈ (x :: X).map NodeRef.node
  | [], x => by simp [lastRef]
  | y :: X, x => by
    show lastRef (.node y) X ∈ _
    have := lastRef_mem X y
    simp only [List.map_cons, List.mem_cons] at this ⊢
    tauto

theorem chain_transport (S S' : SkipList) (lvl : Nat) : ∀ (Y : List Nat) (p : Option Nat),
    ChainFrom S lvl p Y →
    (∀ y ∈ Y, S'.fwd (.node y) lvl = S.fwd (.node y) lvl) →
    (∀ y ∈ Y, y < S'.arena.length) →
    ChainFrom S' lvl p Y
  | [], _, hp, _, _ => hp
  | y :: Y, p, ⟨hp, _, hrest⟩, hf, hlt => by
    refine ⟨hp, hlt y (List.mem_cons_self _ _), ?_⟩
    rw [hf y (List.mem_cons_self _ _)]
    exact chain_transport S S' lvl Y _ hrest
      (fun z hz => hf z (List.mem_cons_of_mem _ hz))
      (fun z hz => hlt z (List.mem_cons_of_mem _ hz))

/-- Splicing a fresh node `w` into a chain right after segment `X`: the
old chain `X ++ Y` becomes `X ++ w :: Y` in the new state, given that only
the slot at the end of `X` was redirected to `w` and `w` inherits its old
target. -/
theorem chain_splice (S S' : SkipList) (lvl w : Nat) :
    ∀ (X Y : List Nat) (r : NodeRef),
    ChainFrom S lvl (S.fwd r lvl) (X ++ Y) →
    (∀ ρ : NodeRef, (ρ = r ∨ ρ ∈ X.map NodeRef.node) → ρ ≠ lastRef r X →
      S'.fwd ρ lvl = S.fwd ρ lvl) →
    S'.fwd (lastRef r X) lvl = some w →
    S'.fwd (.node w) lvl = S.fwd (lastRef r X) lvl →
    (∀ y ∈ Y, S'.fwd (.node y) lvl = S.fwd (.node y) lvl) →
    (∀ n ∈ X ++ Y, n < S'.arena.length) → w < S'.arena.length →
    X.Nodup → r ∉ X.map NodeRef.node →
    ChainFrom S' lvl (S'.fwd r lvl) (X ++ w :: Y)
  | [], Y, r, hold, hkeep, hredir, hinherit, hY, hbnd, hw, hnd, hrX => by
    refine ⟨hredir, hw, ?_⟩
    rw [hinherit]
    exact chain_transport S S' lvl Y _ hold hY (fun y hy => hbnd y hy)
  | x :: X, Y, r, hold, hkeep, hredir, hinherit, hY, hbnd, hw, hnd, hrX => by
    obtain ⟨hp, hbx, hrest⟩ := hold
    have hrne : r ≠ lastRef r (x :: X) := by
      intro he
      apply hrX
      rw [he]
      exact lastRef_mem X x
    have hfr : S'.fwd r lvl = S.fwd r lvl := hkeep r (Or.inl rfl) hrne
    refine ⟨by rw [hfr]; exact hp, hbnd x (List.mem_cons_self _ _), ?_⟩
    exact chain_splice S S' lvl w X Y (.node x) hrest
      (fun ρ hρ hρne => hkeep ρ (Or.inr (by
        rcases hρ with he | hm
        · rw [he]; exact List.mem_cons_self _ _
        · exact List.mem_cons_of_mem _ hm)) hρne)
      hredir hinherit hY (fun n hn => hbnd n (List.mem_cons_of_mem _ hn)) hw
      (List.Nodup.of_cons hnd)
      (by
        intro hmem
        have hx : x ∉ X := (List.nodup_cons.mp hnd).1
        rcases List.mem_map.mp hmem with ⟨z, hz, he⟩
        have hzx : z = x := by injection he
        subst hzx
        exact hx hz)

/-- `insert` with the height draw already sampled (`nl`), written out:
append the new node, raise the level, then perform the per-level pointer
writes.  `SkipList.insert` is definitionally this at
`nl = random_level max_level draws`. -/
def spliceState (S : SkipList) (k : Int) (nl : Nat) : SkipList :=
  (List.range (nl + 1)).foldl
    (fun T i => T.setFwd (stops S k i) i (some S.arena.length))
    { S with
        arena := S.arena ++ [⟨k, (List.range (nl + 1)).map (fun i => S.fwd (stops S k i) i)⟩],
        level := max S.level nl,
        size := S.size + 1 }

theorem insert_eq_spliceState (S : SkipList) (k : Int) (draws : List Bool) :
    S.insert k draws = spliceState S k (random_level S.max_level draws) := rfl

theorem spliceState_arena_length (S : SkipList) (k : Int) (nl : Nat) :
    (spliceState S k nl).arena.length = S.arena.length + 1 := by
  unfold spliceState
  rw [foldl_setFwd_arena_length]
  simp

theorem spliceState_max_level (S : SkipList) (k : Int) (nl : Nat) :
    (spliceState S k nl).max_level = S.max_level := by
  unfold spliceState
  rw [foldl_setFwd_max_level]

theorem spliceState_level (S : SkipList) (k : Int) (nl : Nat) :
    (spliceState S k nl).level = max S.level nl := by
  unfold spliceState
  rw [foldl_setFwd_level]

theorem spliceState_size (S : SkipList) (k : Int) (nl : Nat) :
    (spliceState S k nl).size = S.size + 1 := by
  unfold spliceState
  rw [foldl_setFwd_size]

theorem spliceState_headerForward_length (S : SkipList) (k : Int) (nl : Nat) :
    (spliceState S k nl).headerForward.length = S.headerForward.length := by
  unfold spliceState
  rw [foldl_setFwd_headerForward_length]

theorem spliceState_keyAt_old (S : SkipList) (k : Int) (nl : Nat) (n : Nat)
    (h : n < S.arena.length) : (spliceState S k nl).keyAt n = S.keyAt n := by
  unfold spliceState
  rw [foldl_setFwd_keyAt, append_keyAt _ _ _ _ _ h]

theorem spliceState_keyAt_new (S : SkipList) (k : Int) (nl : Nat) :
    (spliceState S k nl).keyAt S.arena.length = k := by
  unfold spliceState
  rw [foldl_setFwd_keyAt, append_keyAt_new]

theorem spliceState_heightAt_old (S : SkipList) (k : Int) (nl : Nat) (n : Nat)
    (h : n < S.arena.length) : (spliceState S k nl).heightAt n = S.heightAt n := by
  unfold spliceState
  rw [foldl_setFwd_heightAt, append_heightAt _ _ _ _ _ h]

theorem spliceState_heightAt_new (S : SkipList) (k : Int) (nl : Nat) :
    (spliceState S k nl).heightAt S.arena.length = nl + 1 := by
  unfold spliceState
  rw [foldl_setFwd_heightAt, append_heightAt_new]
  simp

theorem lastRef_header_cases (X : List Nat) :
    lastRef .header X = .header ∨ ∃ m ∈ X, lastRef .header X = .node m := by
  cases X with
  | nil => exact Or.inl rfl
  | cons x X =>
    right
    have := lastRef_mem X x
    rcases List.mem_map.mp this with ⟨m, hm, he⟩
    exact ⟨m, hm, he.symm⟩

theorem stops_cases (S : SkipList) (L A B : List Nat) (k : Int)
    (hc : Chains S L) (hlvl : S.level ≤ S.max_level)
    (hAB : L = A ++ B) (hA : ∀ a ∈ A, S.keyAt a < k) (hB : ∀ b ∈ B, ¬ S.keyAt b < k)
    (i : Nat) :
    stops S k i = .header ∨ ∃ m ∈ A, stops S k i = .node m ∧ i < S.heightAt m := by
  rw [stops_spec S L A B k hc hlvl hAB hA hB i]
  rcases lastRef_header_cases (A.filter (fun n => decide (i < S.heightAt n))) with h | ⟨m, hm, he⟩
  · exact Or.inl h
  · right
    obtain ⟨hmA, hmh⟩ := List.mem_filter.mp hm
    exact ⟨m, hmA, he, by simpa using hmh⟩

theorem stops_ne_new (S : SkipList) (L A B : List Nat) (k : Int)
    (hc : Chains S L) (hlvl : S.level ≤ S.max_level)
    (hAB : L = A ++ B) (hA : ∀ a ∈ A, S.keyAt a < k) (hB : ∀ b ∈ B, ¬ S.keyAt b < k)
    (i : Nat) : stops S k i ≠ .node S.arena.length := by
  rcases stops_cases S L A B k hc hlvl hAB hA hB i with h | ⟨m, hm, he, _⟩
  · rw [h]; intro hcontra; exact NodeRef.noConfusion hcontra
  · rw [he]
    intro hcontra
    have hmlen : m = S.arena.length := by injection hcontra
    have : m < S.arena.length := hc.bound m (by rw [hAB]; exact List.mem_append_left _ hm)
    omega

theorem spliceState_fwd (S : SkipList) (L A B : List Nat) (k : Int) (nl : Nat)
    (hc : Chains S L) (hlen : S.headerForward.length = S.max_level + 1)
    (hlvl : S.level ≤ S.max_level) (hnl : nl ≤ S.max_level)
    (hAB : L = A ++ B) (hA : ∀ a ∈ A, S.keyAt a < k) (hB : ∀ b ∈ B, ¬ S.keyAt b < k)
    (r : NodeRef) (lvl : Nat) :
    (spliceState S k nl).fwd r lvl =
      if lvl ≤ nl ∧ r = stops S k lvl then some S.arena.length
      else if r = .node S.arena.length then
        (if lvl ≤ nl then S.fwd (stops S k lvl) lvl else none)
      else S.fwd r lvl := by
  have hok : ∀ j ∈ List.range (nl + 1),
      slotOk { S with
          arena := S.arena ++
            [⟨k, (List.range (nl + 1)).map (fun i => S.fwd (stops S k i) i)⟩],
          level := max S.level nl,
          size := S.size + 1 } (stops S k j) j := by
    intro j hj
    have hjle : j ≤ nl := by simpa [Nat.lt_succ_iff] using hj
    rcases stops_cases S L A B k hc hlvl hAB hA hB j with h | ⟨m, hm, he, hht⟩
    · rw [h]
      show j < (S.headerForward).length
      omega
    · rw [he]
      have hmL : m ∈ L := by rw [hAB]; exact List.mem_append_left _ hm
      have hmb : m < S.arena.length := hc.bound m hmL
      constructor
      · show m < (S.arena ++ _).length
        rw [List.length_append]
        omega
      · show j < SkipList.heightAt _ m
        rw [append_heightAt _ _ _ _ _ hmb]
        exact hht
  unfold spliceState
  rw [fwd_foldl_setFwd _ _ _ _ hok r lvl]
  by_cases h1 : lvl ∈ List.range (nl + 1) ∧ r = stops S k lvl
  · rw [if_pos h1]
    have : lvl ≤ nl := by
      have := h1.1
      simpa [Nat.lt_succ_iff] using this
    rw [if_pos ⟨this, h1.2⟩]
  · rw [if_neg h1]
    have h1' : ¬ (lvl ≤ nl ∧ r = stops S k lvl) := by
      intro hcontra
      exact h1 ⟨by simpa [Nat.lt_succ_iff] using hcontra.1, hcontra.2⟩
    rw [if_neg h1']
    cases r with
    | header =>
      rw [append_fwd_header,
        if_neg (fun hcontra => NodeRef.noConfusion hcontra)]
    | node n =>
      rcases lt_trichotomy n S.arena.length with hn | hn | hn
      · rw [append_fwd_node _ _ _ _ _ hn]
        rw [if_neg (by intro hcontra; rw [NodeRef.node.injEq] at hcontra; omega)]
      · subst hn
        rw [if_pos rfl, append_fwd_new]
        by_cases hle : lvl ≤ nl
        · rw [if_pos hle, getD_map_range _ _ _ _ (by omega)]
        · rw [if_neg hle, getD_map_range_oob _ _ _ _ (by omega)]
      · rw [if_neg (by intro hcontra; rw [NodeRef.node.injEq] at hcontra; omega)]
        show (SkipList.nodeAt _ n).forward.getD lvl none = (S.nodeAt n).forward.getD lvl none
        have e1 : SkipList.nodeAt { S with
            arena := S.arena ++
              [⟨k, (List.range (nl + 1)).map (fun i => S.fwd (stops S k i) i)⟩],
            level := max S.level nl,
            size := S.size + 1 } n = ⟨0, []⟩ := by
          unfold SkipList.nodeAt
          simp only
          exact List.getD_eq_default _ _ (by rw [List.length_append]; simp; omega)
        have e2 : S.nodeAt n = ⟨0, []⟩ :=
          List.getD_eq_default _ _ (by omega)
        rw [e1, e2]

/-- Effect of `insert` on the chain invariant: with the old node list
split as `A ++ B` around the insertion key, the new node (the next arena
index) is spliced between them — immediately BEFORE every node with key
`≥ k`, in particular before all existing equal keys. -/
theorem insert_effect (S : SkipList) (L A B : List Nat) (k : Int) (nl : Nat)
    (hc : Chains S L) (hlen : S.headerForward.length = S.max_level + 1)
    (hlvl : S.level ≤ S.max_level) (hnl : nl ≤ S.max_level)
    (hAB : L = A ++ B) (hA : ∀ a ∈ A, S.keyAt a < k) (hB : ∀ b ∈ B, ¬ S.keyAt b < k) :
    Chains (spliceState S k nl) (A ++ S.arena.length :: B) := by
  have hfwd := spliceState_fwd S L A B k nl hc hlen hlvl hnl hAB hA hB
  have hAmem : ∀ a ∈ A, a ∈ L := fun a ha => by
    rw [hAB]; exact List.mem_append_left _ ha
  have hBmem : ∀ b ∈ B, b ∈ L := fun b hb => by
    rw [hAB]; exact List.mem_append_right _ hb
  have hnodAB : (A ++ B).Nodup := by rw [← hAB]; exact hc.nodup
  have hdisj : ∀ a ∈ A, ∀ b ∈ B, a ≠ b := by
    intro a ha b hb he
    subst he
    exact (List.disjoint_of_nodup_append hnodAB) ha hb
  refine ⟨?_, ?_, ?_, ?_, ?_, ?_, ?_⟩
  · -- bound
    intro n hn
    rw [spliceState_arena_length]
    rcases List.mem_append.mp hn with h | h
    · have := hc.bound n (hAmem n h); omega
    · rcases List.mem_cons.mp h with h | h
      · omega
      · have := hc.bound n (hBmem n h); omega
  · -- nodup
    rw [List.nodup_middle, List.nodup_cons]
    refine ⟨fun hmem => ?_, hnodAB⟩
    have : S.arena.length ∈ L := by rw [hAB]; exact hmem
    have := hc.bound _ this
    omega
  · -- length
    rw [spliceState_size]
    have := hc.len
    rw [hAB] at this
    simp only [List.length_append, List.length_cons] at this ⊢
    omega
  · -- sorted
    have hmapA : A.map (spliceState S k nl).keyAt = A.map S.keyAt :=
      List.map_congr_left (fun a ha =>
        spliceState_keyAt_old S k nl a (hc.bound a (hAmem a ha)))
    have hmapB : B.map (spliceState S k nl).keyAt = B.map S.keyAt :=
      List.map_congr_left (fun b hb =>
        spliceState_keyAt_old S k nl b (hc.bound b (hBmem b hb)))
    have hmap : (A ++ S.arena.length :: B).map (spliceState S k nl).keyAt
        = A.map S.keyAt ++ k :: B.map S.keyAt := by
      rw [List.map_append, List.map_cons, hmapA, hmapB, spliceState_keyAt_new]
    rw [hmap]
    have hso := hc.sorted
    rw [hAB, List.map_append] at hso
    unfold List.Sorted at hso ⊢
    rw [List.pairwise_append] at hso ⊢
    obtain ⟨hsA, hsB, hcross⟩ := hso
    refine ⟨hsA, ?_, ?_⟩
    · rw [List.pairwise_cons]
      refine ⟨?_, hsB⟩
      intro b hb
      rcases List.mem_map.mp hb with ⟨y, hy, rfl⟩
      exact not_lt.mp (hB y hy)
    · intro x hx y hy
      rcases List.mem_map.mp hx with ⟨a, ha, rfl⟩
      rcases List.mem_cons.mp hy with rfl | hy'
      · exact le_of_lt (hA a ha)
      · exact hcross _ (List.mem_map_of_mem _ ha) _ hy'
  · -- height upper bound
    intro n hn
    rw [spliceState_level]
    rcases List.mem_append.mp hn with h | h
    · rw [spliceState_heightAt_old S k nl n (hc.bound n (hAmem n h))]
      have := hc.hle n (hAmem n h)
      have : S.level ≤ max S.level nl := le_max_left _ _
      omega
    · rcases List.mem_cons.mp h with h | h
      · subst h
        rw [spliceState_heightAt_new]
        have : nl ≤ max S.level nl := le_max_right _ _
        omega
      · rw [spliceState_heightAt_old S k nl n (hc.bound n (hBmem n h))]
        have h1 := hc.hle n (hBmem n h)
        have : S.level ≤ max S.level nl := le_max_left _ _
        omega
  · -- height positive
    intro n hn
    rcases List.mem_append.mp hn with h | h
    · rw [spliceState_heightAt_old S k nl n (hc.bound n (hAmem n h))]
      exact hc.hpos n (hAmem n h)
    · rcases List.mem_cons.mp h with h | h
      · subst h
        rw [spliceState_heightAt_new]
        omega
      · rw [spliceState_heightAt_old S k nl n (hc.bound n (hBmem n h))]
        exact hc.hpos n (hBmem n h)
  · -- chains
    intro i hi
    rw [spliceState_max_level] at hi
    have hfA : A.filter (fun n => decide (i < (spliceState S k nl).heightAt n))
        = A.filter (fun n => decide (i < S.heightAt n)) :=
      List.filter_congr (fun a ha => by
        rw [spliceState_heightAt_old S k nl a (hc.bound a (hAmem a ha))])
    have hfB : B.filter (fun n => decide (i < (spliceState S k nl).heightAt n))
        = B.filter (fun n => decide (i < S.heightAt n)) :=
      List.filter_congr (fun b hb => by
        rw [spliceState_heightAt_old S k nl b (hc.bound b (hBmem b hb))])
    have holdchain := hc.chain i hi
    rw [hAB, List.filter_append] at holdchain
    have hndA : (A.filter (fun n => decide (i < S.heightAt n))).Nodup :=
      ((List.nodup_append.mp hnodAB).1).filter _
    have hstops := stops_spec S L A B k hc hlvl hAB hA hB i
    by_cases hinl : i ≤ nl
    · -- the new node participates at level i
      have hlist : (A ++ S.arena.length :: B).filter
            (fun n => decide (i < (spliceState S k nl).heightAt n))
          = A.filter (fun n => decide (i < S.heightAt n))
            ++ S.arena.length :: B.filter (fun n => decide (i < S.heightAt n)) := by
        rw [List.filter_append, List.filter_cons, hfA, hfB]
        have hnew : decide (i < (spliceState S k nl).heightAt S.arena.length) = true := by
          rw [spliceState_heightAt_new]
          simpa using by omega
        rw [hnew]
        simp
      rw [hlist]
      apply chain_splice S (spliceState S k nl) i S.arena.length
        (A.filter (fun n => decide (i < S.heightAt n)))
        (B.filter (fun n => decide (i < S.heightAt n)))
        .header holdchain
      · -- pointers kept on the strict prefix
        intro ρ hρ hρne
        rw [hfwd ρ i]
        have hc1 : ¬ (i ≤ nl ∧ ρ = stops S k i) := by
          rintro ⟨_, he⟩
          rw [hstops] at he
          exact hρne he
        rw [if_neg hc1]
        have hc2 : ¬ ρ = NodeRef.node S.arena.length := by
          rcases hρ with he | hm
          · subst he; intro hco; exact NodeRef.noConfusion hco
          · rcases List.mem_map.mp hm with ⟨m, hmm, rfl⟩
            have : m ∈ A := List.mem_of_mem_filter hmm
            have := hc.bound m (hAmem m this)
            intro hco
            rw [NodeRef.node.injEq] at hco
            omega
        rw [if_neg hc2]
      · -- the redirected slot
        rw [hfwd]
        rw [if_pos ⟨hinl, by rw [hstops]⟩]
      · -- the new node inherits the old target
        rw [hfwd]
        rw [if_neg (by
          rintro ⟨_, he⟩
          exact stops_ne_new S L A B k hc hlvl hAB hA hB i he.symm)]
        rw [if_pos rfl, if_pos hinl, hstops]
      · -- suffix pointers kept
        intro y hy
        have hyB : y ∈ B := List.mem_of_mem_filter hy
        rw [hfwd]
        have hc1 : ¬ (i ≤ nl ∧ NodeRef.node y = stops S k i) := by
          rintro ⟨_, he⟩
          rcases stops_cases S L A B k hc hlvl hAB hA hB i with hh | ⟨m, hm, hsm, _⟩
          · rw [hh] at he; exact NodeRef.noConfusion he
          · rw [hsm] at he
            rw [NodeRef.node.injEq] at he
            exact hdisj m hm y hyB (by omega)
        rw [if_neg hc1]
        have hc2 : ¬ (NodeRef.node y : NodeRef) = NodeRef.node S.arena.length := by
          intro hco
          rw [NodeRef.node.injEq] at hco
          have := hc.bound y (hBmem y hyB)
          omega
        rw [if_neg hc2]
      · -- bounds of the old nodes
        intro n hn
        rw [spliceState_arena_length]
        rcases List.mem_append.mp hn with h | h
        · have := hc.bound n (hAmem n (List.mem_of_mem_filter h)); omega
        · have := hc.bound n (hBmem n (List.mem_of_mem_filter h)); omega
      · rw [spliceState_arena_length]; omega
      · exact hndA
      · intro hmem
        rcases List.mem_map.mp hmem with ⟨m, _, he⟩
        exact NodeRef.noConfusion he
    · -- the new node does not participate at level i
      have hlist : (A ++ S.arena.length :: B).filter
            (fun n => decide (i < (spliceState S k nl).heightAt n))
          = A.filter (fun n => decide (i < S.heightAt n))
            ++ B.filter (fun n => decide (i < S.heightAt n)) := by
        rw [List.filter_append, List.filter_cons, hfA, hfB]
        have hnew : decide (i < (spliceState S k nl).heightAt S.arena.length) = false := by
          rw [spliceState_heightAt_new]
          simpa using by omega
        rw [hnew]
        simp
      rw [hlist]
      have hstart : (spliceState S k nl).fwd .header i = S.fwd .header i := by
        rw [hfwd]
        rw [if_neg (by rintro ⟨h1, _⟩; omega)]
        rw [if_neg (fun hco => NodeRef.noConfusion hco)]
      rw [hstart]
      apply chain_transport S (spliceState S k nl) i _ _ holdchain
      · intro y hy
        have hyL : y ∈ L := by
          rw [hAB]
          rcases List.mem_append.mp hy with h | h
          · exact List.mem_append_left _ (List.mem_of_mem_filter h)
          · exact List.mem_append_right _ (List.mem_of_mem_filter h)
        rw [hfwd]
        rw [if_neg (by rintro ⟨h1, _⟩; omega)]
        rw [if_neg (by
          intro hco
          rw [NodeRef.node.injEq] at hco
          have := hc.bound y hyL
          omega)]
      · intro y hy
        have hyL : y ∈ L := by
          rw [hAB]
          rcases List.mem_append.mp hy with h | h
          · exact List.mem_append_left _ (List.mem_of_mem_filter h)
          · exact List.mem_append_right _ (List.mem_of_mem_filter h)
        rw [spliceState_arena_length]
        have := hc.bound y hyL
        omega

/-- Bypassing the node `w` in a chain: the old chain `X ++ w :: Y` becomes
`X ++ Y` in the new state, given that only the slot at the end of `X` was
redirected to `w`'s old target. -/
theorem chain_unsplice (S S' : SkipList) (lvl w : Nat) :
    ∀ (X Y : List Nat) (r : NodeRef),
    ChainFrom S lvl (S.fwd r lvl) (X ++ w :: Y) →
    (∀ ρ : NodeRef, (ρ = r ∨ ρ ∈ X.map NodeRef.node) → ρ ≠ lastRef r X →
      S'.fwd ρ lvl = S.fwd ρ lvl) →
    S'.fwd (lastRef r X) lvl = S.fwd (.node w) lvl →
    (∀ y ∈ Y, S'.fwd (.node y) lvl = S.fwd (.node y) lvl) →
    (∀ m ∈ X ++ Y, m < S'.arena.length) →
    X.Nodup → r ∉ X.map NodeRef.node →
    ChainFrom S' lvl (S'.fwd r lvl) (X ++ Y)
  | [], Y, r, hold, hkeep, hredir, hY, hbnd, hnd, hrX => by
    obtain ⟨_, _, hrest⟩ := hold
    have hredir' : S'.fwd r lvl = S.fwd (.node w) lvl := hredir
    rw [hredir']
    exact chain_transport S S' lvl Y _ hrest hY (fun y hy => hbnd y hy)
  | x :: X, Y, r, hold, hkeep, hredir, hY, hbnd, hnd, hrX => by
    obtain ⟨hp, hbx, hrest⟩ := hold
    have hrne : r ≠ lastRef r (x :: X) := by
      intro he
      apply hrX
      rw [he]
      exact lastRef_mem X x
    have hfr : S'.fwd r lvl = S.fwd r lvl := hkeep r (Or.inl rfl) hrne
    refine ⟨by rw [hfr]; exact hp, hbnd x (List.mem_cons_self _ _), ?_⟩
    exact chain_unsplice S S' lvl w X Y (.node x) hrest
      (fun ρ hρ hρne => hkeep ρ (Or.inr (by
        rcases hρ with he | hm
        · rw [he]; exact List.mem_cons_self _ _
        · exact List.mem_cons_of_mem _ hm)) hρne)
      hredir hY (fun m hm => hbnd m (List.mem_cons_of_mem _ hm))
      (List.Nodup.of_cons hnd)
      (by
        intro hmem
        have hx : x ∉ X := (List.nodup_cons.mp hnd).1
        rcases List.mem_map.mp hmem with ⟨z, hz, he⟩
        have hzx : z = x := by injection he
        subst hzx
        exact hx hz)

theorem filter_zero_height (S : SkipList) (L : List Nat) (hc : Chains S L)
    (M : List Nat) (hM : ∀ m ∈ M, m ∈ L) :
    M.filter (fun m => decide (0 < S.heightAt m)) = M := by
  rw [List.filter_eq_self]
  intro m hm
  have := hc.hpos m (hM m hm)
  simpa using by omega

/-- The node the descent lands on at level 0 heads the `≥ k` part of the
node list. -/
theorem stops_zero_chain (S : SkipList) (L A B : List Nat) (k : Int) (hc : Chains S L)
    (hlvl : S.level ≤ S.max_level) (hAB : L = A ++ B)
    (hA : ∀ a ∈ A, S.keyAt a < k) (hB : ∀ b ∈ B, ¬ S.keyAt b < k) :
    ChainFrom S 0 (S.fwd (stops S k 0) 0) B := by
  have := stops_chain S L A B k hc hlvl hAB hA hB 0 (Nat.zero_le _)
  rwa [filter_zero_height S L hc B
    (fun b hb => by rw [hAB]; exact List.mem_append_right _ hb)] at this

theorem key_not_mem (S : SkipList) (L A B : List Nat) (k : Int) (hc : Chains S L)
    (hAB : L = A ++ B) (hA : ∀ a ∈ A, S.keyAt a < k) (hB : ∀ b ∈ B, ¬ S.keyAt b < k)
    (hhead : ∀ n B', B = n :: B' → S.keyAt n ≠ k) :
    k ∉ L.map S.keyAt := by
  intro hmem
  rcases List.mem_map.mp hmem with ⟨m, hmL, hkey⟩
  rw [hAB] at hmL
  rcases List.mem_append.mp hmL with h | h
  · have := hA m h
    omega
  · cases B with
    | nil => exact absurd h (List.not_mem_nil m)
    | cons n B' =>
      have hso := hc.sorted
      rw [hAB, List.map_append] at hso
      have hsB : (List.map S.keyAt (n :: B')).Pairwise (· ≤ ·) :=
        (List.pairwise_append.mp hso).2.1
      rw [List.map_cons, List.pairwise_cons] at hsB
      have hkn : k ≤ S.keyAt n := not_lt.mp (hB n (List.mem_cons_self _ _))
      have hne := hhead n B' rfl
      rcases List.mem_cons.mp h with he | h'
      · subst he
        omega
      · have h1 : S.keyAt n ≤ S.keyAt m :=
          hsB.1 (S.keyAt m) (List.mem_map_of_mem _ h')
        omega

/-- `search` under the invariant: found exactly when the key occurs in the
node list. -/
theorem search_spec (S : SkipList) (L A B : List Nat) (k : Int) (hc : Chains S L)
    (hlvl : S.level ≤ S.max_level) (hAB : L = A ++ B)
    (hA : ∀ a ∈ A, S.keyAt a < k) (hB : ∀ b ∈ B, ¬ S.keyAt b < k) :
    S.search k = true ↔ k ∈ L.map S.keyAt := by
  have hch := stops_zero_chain S L A B k hc hlvl hAB hA hB
  unfold SkipList.search
  cases B with
  | nil =>
    have hnone : S.fwd (stops S k 0) 0 = none := hch
    rw [hnone]
    simp only [Bool.false_eq_true, false_iff]
    exact key_not_mem S L A [] k hc hAB hA hB (fun n B' h => List.noConfusion h)
  | cons n B' =>
    have hsome : S.fwd (stops S k 0) 0 = some n := hch.1
    rw [hsome]
    simp only [decide_eq_true_eq]
    constructor
    · intro hk
      rw [hAB]
      rw [← hk]
      exact List.mem_map_of_mem _ (List.mem_append_right _ (List.mem_cons_self _ _))
    · intro hmem
      by_contra hne
      exact key_not_mem S L A (n :: B') k hc hAB hA hB
        (fun m B'' hm => by
          have hnm : n = m := by injection hm
          subst hnm
          exact hne) hmem

theorem fwd_stops_head (S : SkipList) (L A B' : List Nat) (n : Nat) (k : Int)
    (hc : Chains S L) (hlvl : S.level ≤ S.max_level)
    (hAB : L = A ++ n :: B') (hA : ∀ a ∈ A, S.keyAt a < k)
    (hB : ∀ b ∈ n :: B', ¬ S.keyAt b < k)
    (i : Nat) (hi : i ≤ S.max_level) (hih : i < S.heightAt n) :
    S.fwd (stops S k i) i = some n := by
  have hch := stops_chain S L A (n :: B') k hc hlvl hAB hA hB i hi
  rw [List.filter_cons, if_pos (by simpa using hih)] at hch
  exact hch.1

theorem fwd_stops_nohead (S : SkipList) (L A B' : List Nat) (n : Nat) (k : Int)
    (hc : Chains S L) (hlvl : S.level ≤ S.max_level)
    (hAB : L = A ++ n :: B') (hA : ∀ a ∈ A, S.keyAt a < k)
    (hB : ∀ b ∈ n :: B', ¬ S.keyAt b < k)
    (i : Nat) (hi : i ≤ S.max_level) (hih : S.heightAt n ≤ i) :
    S.fwd (stops S k i) i ≠ some n := by
  have hch := stops_chain S L A (n :: B') k hc hlvl hAB hA hB i hi
  rw [List.filter_cons, if_neg (by simpa using by omega)] at hch
  have hnB' : n ∉ B' := by
    have := hc.nodup
    rw [hAB] at this
    have := (List.nodup_append.mp this).2.1
    exact (List.nodup_cons.mp this).1
  cases he : B'.filter (fun m => decide (i < S.heightAt m)) with
  | nil =>
    rw [he] at hch
    have : S.fwd (stops S k i) i = none := hch
    rw [this]
    intro hco
    exact Option.noConfusion hco
  | cons m rest =>
    rw [he] at hch
    have : S.fwd (stops S k i) i = some m := hch.1
    rw [this]
    intro hco
    have hmn : m = n := by injection hco
    subst hmn
    have : m ∈ B' := List.mem_of_mem_filter (he ▸ List.mem_cons_self m rest)
    exact hnB' this

theorem stops_ne_node_b (S : SkipList) (L A B : List Nat) (k : Int)
    (hc : Chains S L) (hlvl : S.level ≤ S.max_level)
    (hAB : L = A ++ B) (hA : ∀ a ∈ A, S.keyAt a < k) (hB : ∀ b ∈ B, ¬ S.keyAt b < k)
    (y : Nat) (hy : y ∈ B) (lvl : Nat) : stops S k lvl ≠ .node y := by
  rcases stops_cases S L A B k hc hlvl hAB hA hB lvl with h | ⟨m, hm, he, _⟩
  · rw [h]; intro hco; exact NodeRef.noConfusion hco
  · rw [he]
    intro hco
    have hmy : m = y := by injection hco
    subst hmy
    have := hc.nodup
    rw [hAB] at this
    exact (List.disjoint_of_nodup_append this) hm hy

theorem slotOk_stops (S : SkipList) (L A B : List Nat) (k : Int)
    (hc : Chains S L) (hlen : S.headerForward.length = S.max_level + 1)
    (hlvl : S.level ≤ S.max_level)
    (hAB : L = A ++ B) (hA : ∀ a ∈ A, S.keyAt a < k) (hB : ∀ b ∈ B, ¬ S.keyAt b < k)
    (i : Nat) (hi : i ≤ S.max_level) : slotOk S (stops S k i) i := by
  rcases stops_cases S L A B k hc hlvl hAB hA hB i with h | ⟨m, hm, he, hht⟩
  · rw [h]
    show i < S.headerForward.length
    omega
  · rw [he]
    exact ⟨hc.bound m (by rw [hAB]; exact List.mem_append_left _ hm), hht⟩

theorem shrinkLoop_fields : ∀ (g : Nat) (T : SkipList), T.level ≤ g →
    (shrinkLoop T).arena = T.arena ∧ (shrinkLoop T).headerForward = T.headerForward ∧
    (shrinkLoop T).size = T.size ∧ (shrinkLoop T).max_level = T.max_level ∧
    (shrinkLoop T).level ≤ T.level ∧
    (∀ j, (shrinkLoop T).level < j → j ≤ T.level → T.headerForward.getD j none = none)
  | 0, T, hg => by
    rw [shrinkLoop, dif_neg (by omega)]
    exact ⟨rfl, rfl, rfl, rfl, le_rfl, fun j h1 h2 => by omega⟩
  | g + 1, T, hg => by
    rw [shrinkLoop]
    by_cases hcond : 0 < T.level ∧ T.headerForward.getD T.level none = none
    · rw [dif_pos hcond]
      have := shrinkLoop_fields g { T with level := T.level - 1 } (by simp; omega)
      obtain ⟨h1, h2, h3, h4, h5, h6⟩ := this
      refine ⟨h1, h2, h3, h4, by simp at h5; omega, ?_⟩
      intro j hj1 hj2
      by_cases hjt : j = T.level
      · subst hjt; exact hcond.2
      · exact h6 j hj1 (by simp; omega)
    · rw [dif_neg hcond]
      exact ⟨rfl, rfl, rfl, rfl, le_rfl, fun j h1 h2 => by omega⟩

theorem fwd_congr_fields (T T' : SkipList) (ha : T'.arena = T.arena)
    (hh : T'.headerForward = T.headerForward) :
    (∀ r lvl, T'.fwd r lvl = T.fwd r lvl) ∧ (∀ m, T'.keyAt m = T.keyAt m) ∧
    (∀ m, T'.heightAt m = T.heightAt m) := by
  refine ⟨?_, ?_, ?_⟩
  · intro r lvl
    cases r with
    | header =>
      show T'.headerForward.getD lvl none = _
      rw [hh]
      rfl
    | node i =>
      show (T'.arena.getD i _).forward.getD lvl none = (T.arena.getD i _).forward.getD lvl none
      rw [ha]
  · intro m
    show (T'.arena.getD m _).key = (T.arena.getD m _).key
    rw [ha]
  · intro m
    show (T'.arena.getD m _).forward.length = (T.arena.getD m _).forward.length
    rw [ha]

theorem rewireLoop_spec (S : SkipList) (L A B' : List Nat) (n : Nat) (k : Int)
    (hc : Chains S L) (hlen : S.headerForward.length = S.max_level + 1)
    (hlvl : S.level ≤ S.max_level)
    (hAB : L = A ++ n :: B') (hA : ∀ a ∈ A, S.keyAt a < k)
    (hB : ∀ b ∈ n :: B', ¬ S.keyAt b < k) :
    ∀ (g i : Nat) (T : SkipList), S.level + 1 - i ≤ g → i ≤ S.heightAt n →
      T.arena.length = S.arena.length →
      T.headerForward.length = S.headerForward.length →
      (∀ m, T.keyAt m = S.keyAt m) → (∀ m, T.heightAt m = S.heightAt m) →
      T.level = S.level → T.size = S.size → T.max_level = S.max_level →
      (∀ r lvl, T.fwd r lvl =
        if lvl < i ∧ lvl < S.heightAt n ∧ r = stops S k lvl
        then S.fwd (.node n) lvl else S.fwd r lvl) →
      (∀ r lvl, (rewireLoop S k n S.level i T).fwd r lvl =
          if lvl < S.heightAt n ∧ r = stops S k lvl
          then S.fwd (.node n) lvl else S.fwd r lvl) ∧
        (rewireLoop S k n S.level i T).arena.length = S.arena.length ∧
        (rewireLoop S k n S.level i T).headerForward.length = S.headerForward.length ∧
        (∀ m, (rewireLoop S k n S.level i T).keyAt m = S.keyAt m) ∧
        (∀ m, (rewireLoop S k n S.level i T).heightAt m = S.heightAt m) ∧
        (rewireLoop S k n S.level i T).level = S.level ∧
        (rewireLoop S k n S.level i T).size = S.size ∧
        (rewireLoop S k n S.level i T).max_level = S.max_level := by
  have hnL : n ∈ L := by rw [hAB]; exact List.mem_append_right _ (List.mem_cons_self _ _)
  have hhn : S.heightAt n ≤ S.level + 1 := hc.hle n hnL
  intro g
  induction g with
  | zero =>
    intro i T hg hihn harena hhf hkey hht hlev hsz hml hT
    have hi : i = S.heightAt n := by omega
    rw [rewireLoop, dif_neg (by omega)]
    refine ⟨?_, harena, hhf, hkey, hht, hlev, hsz, hml⟩
    intro r lvl
    rw [hT r lvl]
    by_cases hcnd : lvl < S.heightAt n ∧ r = stops S k lvl
    · rw [if_pos ⟨by omega, hcnd.1, hcnd.2⟩, if_pos hcnd]
    · rw [if_neg (by rintro ⟨_, h2, h3⟩; exact hcnd ⟨h2, h3⟩), if_neg hcnd]
  | succ g ih =>
    intro i T hg hihn harena hhf hkey hht hlev hsz hml hT
    by_cases hile : i ≤ S.level
    · rw [rewireLoop, dif_pos hile]
      by_cases hbreak : i < S.heightAt n
      · -- predecessor still points at `n`: rewire and continue
        have hTfwd : T.fwd (stops S k i) i = some n := by
          rw [hT]
          rw [if_neg (by rintro ⟨h1, _, _⟩; omega)]
          exact fwd_stops_head S L A B' n k hc hlvl hAB hA hB i (by omega) hbreak
        rw [if_neg (by simpa using hTfwd)]
        have hval : (T.nodeAt n).forward.getD i none = S.fwd (.node n) i := by
          show T.fwd (.node n) i = _
          rw [hT]
          rw [if_neg (by rintro ⟨h1, _, _⟩; omega)]
        have hslot : slotOk T (stops S k i) i := by
          have hS := slotOk_stops S L A (n :: B') k hc hlen hlvl hAB hA hB i (by omega)
          rcases hstop : stops S k i with _ | m
          · rw [hstop] at hS
            show i < T.headerForward.length
            rw [hhf]
            exact hS
          · rw [hstop] at hS
            exact ⟨by rw [harena]; exact hS.1, by rw [hht]; exact hS.2⟩
        apply ih (i + 1) (T.setFwd (stops S k i) i ((T.nodeAt n).forward.getD i none))
          (by omega) (by omega)
          (by rw [setFwd_arena_length]; exact harena)
          (by rw [setFwd_headerForward_length]; exact hhf)
          (fun m => by rw [setFwd_keyAt]; exact hkey m)
          (fun m => by rw [setFwd_heightAt]; exact hht m)
          (by rw [setFwd_level]; exact hlev)
          (by rw [setFwd_size]; exact hsz)
          (by rw [setFwd_max_level]; exact hml)
        intro r lvl
        by_cases hsame : r = stops S k i ∧ lvl = i
        · obtain ⟨hr, hl⟩ := hsame
          subst hl
          subst hr
          rw [fwd_setFwd_same T _ _ _ hslot, hval]
          rw [if_pos ⟨by omega, hbreak, rfl⟩]
        · rw [fwd_setFwd_other T _ _ _ _ _ hsame, hT]
          by_cases hcnd : lvl < i ∧ lvl < S.heightAt n ∧ r = stops S k lvl
          · rw [if_pos hcnd, if_pos ⟨by omega, hcnd.2.1, hcnd.2.2⟩]
          · rw [if_neg hcnd]
            rw [if_neg (by
              rintro ⟨h1, h2, h3⟩
              by_cases hli : lvl = i
              · subst hli
                exact hsame ⟨h3, rfl⟩
              · exact hcnd ⟨by omega, h2, h3⟩)]
      · -- predecessor no longer points at `n`: break
        have hi : i = S.heightAt n := by omega
        have hTfwd : T.fwd (stops S k i) i ≠ some n := by
          rw [hT]
          rw [if_neg (by rintro ⟨h1, _, _⟩; omega)]
          exact fwd_stops_nohead S L A B' n k hc hlvl hAB hA hB i (by omega) (by omega)
        rw [if_pos (by simpa using hTfwd)]
        refine ⟨?_, harena, hhf, hkey, hht, hlev, hsz, hml⟩
        intro r lvl
        rw [hT r lvl]
        by_cases hcnd : lvl < S.heightAt n ∧ r = stops S k lvl
        · rw [if_pos ⟨by omega, hcnd.1, hcnd.2⟩, if_pos hcnd]
        · rw [if_neg (by rintro ⟨_, h2, h3⟩; exact hcnd ⟨h2, h3⟩), if_neg hcnd]
    · -- loop bound reached
      have hi : i = S.heightAt n := by omega
      rw [rewireLoop, dif_neg hile]
      refine ⟨?_, harena, hhf, hkey, hht, hlev, hsz, hml⟩
      intro r lvl
      rw [hT r lvl]
      by_cases hcnd : lvl < S.heightAt n ∧ r = stops S k lvl
      · rw [if_pos ⟨by omega, hcnd.1, hcnd.2⟩, if_pos hcnd]
      · rw [if_neg (by rintro ⟨_, h2, h3⟩; exact hcnd ⟨h2, h3⟩), if_neg hcnd]

theorem delete_state_chains (S : SkipList) (L A B' : List Nat) (n : Nat) (k : Int)
    (hc : Chains S L) (hlvl : S.level ≤ S.max_level)
    (hAB : L = A ++ n :: B') (hA : ∀ a ∈ A, S.keyAt a < k)
    (hB : ∀ b ∈ n :: B', ¬ S.keyAt b < k)
    (D : SkipList)
    (hDfwd : ∀ r lvl, D.fwd r lvl =
      if lvl < S.heightAt n ∧ r = stops S k lvl then S.fwd (.node n) lvl else S.fwd r lvl)
    (hDkey : ∀ m, D.keyAt m = S.keyAt m) (hDht : ∀ m, D.heightAt m = S.heightAt m)
    (hDarena : D.arena.length = S.arena.length) (hDml : D.max_level = S.max_level)
    (hDsz : D.size = S.size - 1) (hDlev : D.level ≤ S.level)
    (hlevhigh : ∀ j, D.level < j → j ≤ S.level → D.fwd .header j = none) :
    Chains D (A ++ B') := by
  have hmemL : ∀ m ∈ A ++ B', m ∈ L := by
    intro m hm
    rw [hAB]
    rcases List.mem_append.mp hm with h | h
    · exact List.mem_append_left _ h
    · exact List.mem_append_right _ (List.mem_cons_of_mem _ h)
  have hnL : n ∈ L := by rw [hAB]; exact List.mem_append_right _ (List.mem_cons_self _ _)
  have hsub : List.Sublist (A ++ B') (A ++ n :: B') :=
    (List.sublist_cons_self n B').append_left A
  have hndL : (A ++ n :: B').Nodup := by rw [← hAB]; exact hc.nodup
  have hndA : A.Nodup := (List.nodup_append.mp hndL).1
  have hstops := stops_spec S L A (n :: B') k hc hlvl hAB hA hB
  -- the per-level chains of D
  have hchainsD : ∀ i, i ≤ S.max_level →
      ChainFrom D i (D.fwd .header i)
        ((A ++ B').filter (fun m => decide (i < S.heightAt m))) := by
    intro i hi
    have holdchain := hc.chain i hi
    rw [hAB, List.filter_append, List.filter_cons] at holdchain
    rw [List.filter_append]
    by_cases hin : i < S.heightAt n
    · rw [if_pos (by simpa using hin)] at holdchain
      apply chain_unsplice S D i n
        (A.filter (fun m => decide (i < S.heightAt m)))
        (B'.filter (fun m => decide (i < S.heightAt m)))
        .header holdchain
      · intro ρ hρ hρne
        rw [hDfwd]
        rw [if_neg (by
          rintro ⟨_, he⟩
          rw [hstops i] at he
          exact hρne he)]
      · rw [hDfwd]
        rw [if_pos ⟨hin, by rw [hstops i]⟩]
      · intro y hy
        rw [hDfwd]
        rw [if_neg (by
          rintro ⟨_, he⟩
          exact stops_ne_node_b S L A (n :: B') k hc hlvl hAB hA hB y
            (List.mem_cons_of_mem _ (List.mem_of_mem_filter hy)) i he.symm)]
      · intro m hm
        rw [hDarena]
        refine hc.bound m (hmemL m ?_)
        rcases List.mem_append.mp hm with h | h
        · exact List.mem_append_left _ (List.mem_of_mem_filter h)
        · exact List.mem_append_right _ (List.mem_of_mem_filter h)
      · exact hndA.filter _
      · intro hmem
        rcases List.mem_map.mp hmem with ⟨m, _, he⟩
        exact NodeRef.noConfusion he
    · rw [if_neg (by simpa using by omega)] at holdchain
      have hstart : D.fwd .header i = S.fwd .header i := by
        rw [hDfwd]
        rw [if_neg (by rintro ⟨h1, _⟩; omega)]
      rw [hstart]
      apply chain_transport S D i _ _ holdchain
      · intro y hy
        rw [hDfwd]
        rw [if_neg (by rintro ⟨h1, _⟩; omega)]
      · intro y hy
        rw [hDarena]
        refine hc.bound y (hmemL y ?_)
        rcases List.mem_append.mp hy with h | h
        · exact List.mem_append_left _ (List.mem_of_mem_filter h)
        · exact List.mem_append_right _ (List.mem_of_mem_filter h)
  have hhtfun : D.heightAt = S.heightAt := funext hDht
  have hkeyfun : D.keyAt = S.keyAt := funext hDkey
  refine ⟨?_, ?_, ?_, ?_, ?_, ?_, ?_⟩
  · intro m hm
    rw [hDarena]
    exact hc.bound m (hmemL m hm)
  · exact hndL.sublist hsub
  · have := hc.len
    rw [hAB] at this
    rw [hDsz]
    simp only [List.length_append, List.length_cons] at this ⊢
    omega
  · rw [hkeyfun]
    have := hc.sorted
    rw [hAB] at this
    exact this.sublist (hsub.map _)
  · intro m hm
    rw [hDht m]
    by_contra hcon
    push_neg at hcon
    have hhm : S.heightAt m ≤ S.level + 1 := hc.hle m (hmemL m hm)
    have hj1 : D.level < S.heightAt m - 1 := by omega
    have hj2 : S.heightAt m - 1 ≤ S.level := by omega
    have hnone := hlevhigh (S.heightAt m - 1) hj1 hj2
    have hchain := hchainsD (S.heightAt m - 1) (by omega)
    rw [hnone] at hchain
    have hmf : m ∈ (A ++ B').filter
        (fun x => decide (S.heightAt m - 1 < S.heightAt x)) := by
      rw [List.mem_filter]
      have hp : 1 ≤ S.heightAt m := hc.hpos m (hmemL m hm)
      exact ⟨hm, by simpa using by omega⟩
    cases he : (A ++ B').filter (fun x => decide (S.heightAt m - 1 < S.heightAt x)) with
    | nil => rw [he] at hmf; exact absurd hmf (List.not_mem_nil m)
    | cons z rest =>
      rw [he] at hchain
      exact Option.noConfusion hchain.1
  · intro m hm
    rw [hDht m]
    exact hc.hpos m (hmemL m hm)
  · intro i hi
    rw [hDml] at hi
    rw [hhtfun]
    exact hchainsD i hi

theorem delete_miss (S : SkipList) (L A B : List Nat) (k : Int) (hc : Chains S L)
    (hlvl : S.level ≤ S.max_level) (hAB : L = A ++ B)
    (hA : ∀ a ∈ A, S.keyAt a < k) (hB : ∀ b ∈ B, ¬ S.keyAt b < k)
    (hmiss : ∀ n B2, B = n :: B2 → S.keyAt n ≠ k) :
    S.delete k = (false, S) := by
  have hch := stops_zero_chain S L A B k hc hlvl hAB hA hB
  unfold SkipList.delete
  cases B with
  | nil =>
    have hnone : S.fwd (stops S k 0) 0 = none := hch
    rw [hnone]
  | cons n B2 =>
    have hsome : S.fwd (stops S k 0) 0 = some n := hch.1
    rw [hsome]
    simp only [if_neg (hmiss n B2 rfl)]

theorem delete_effect (S : SkipList) (L A B' : List Nat) (n : Nat) (k : Int)
    (hc : Chains S L) (hlen : S.headerForward.length = S.max_level + 1)
    (hlvl : S.level ≤ S.max_level)
    (hAB : L = A ++ n :: B') (hA : ∀ a ∈ A, S.keyAt a < k)
    (hB : ∀ b ∈ n :: B', ¬ S.keyAt b < k) (hkey : S.keyAt n = k) :
    (S.delete k).1 = true ∧
    Chains (S.delete k).2 (A ++ B') ∧
    (S.delete k).2.max_level = S.max_level ∧
    (S.delete k).2.headerForward.length = S.headerForward.length ∧
    (S.delete k).2.level ≤ S.level ∧
    (∀ m, (S.delete k).2.keyAt m = S.keyAt m) := by
  have hch := stops_zero_chain S L A (n :: B') k hc hlvl hAB hA hB
  have hsome : S.fwd (stops S k 0) 0 = some n := hch.1
  have hdel : S.delete k =
      (true, { shrinkLoop (rewireLoop S k n S.level 0 S) with
                size := (shrinkLoop (rewireLoop S k n S.level 0 S)).size - 1 }) := by
    unfold SkipList.delete
    rw [hsome]
    simp only [if_pos hkey]
  obtain ⟨hRfwd, hRarena, hRhf, hRkey, hRht, hRlev, hRsz, hRml⟩ :=
    rewireLoop_spec S L A B' n k hc hlen hlvl hAB hA hB (S.level + 1) 0 S
      (by omega) (by omega) rfl rfl (fun _ => rfl) (fun _ => rfl) rfl rfl rfl
      (fun r lvl => by rw [if_neg (by rintro ⟨h1, _, _⟩; omega)])
  obtain ⟨hSa, hSh, hSs, hSm, hSl, hSnone⟩ :=
    shrinkLoop_fields (rewireLoop S k n S.level 0 S).level (rewireLoop S k n S.level 0 S) le_rfl
  obtain ⟨hCf, hCk, hCh⟩ :=
    fwd_congr_fields (rewireLoop S k n S.level 0 S)
      { shrinkLoop (rewireLoop S k n S.level 0 S) with
          size := (shrinkLoop (rewireLoop S k n S.level 0 S)).size - 1 }
      hSa hSh
  rw [hdel]
  refine ⟨rfl, ?_, ?_, ?_, ?_, ?_⟩
  · apply delete_state_chains S L A B' n k hc hlvl hAB hA hB
    · intro r lvl
      rw [hCf r lvl]
      exact hRfwd r lvl
    · intro m
      rw [hCk m]
      exact hRkey m
    · intro m
      rw [hCh m]
      exact hRht m
    · show (shrinkLoop (rewireLoop S k n S.level 0 S)).arena.length = _
      rw [hSa]
      exact hRarena
    · show (shrinkLoop (rewireLoop S k n S.level 0 S)).max_level = _
      rw [hSm]
      exact hRml
    · show (shrinkLoop (rewireLoop S k n S.level 0 S)).size - 1 = _
      rw [hSs, hRsz]
    · show (shrinkLoop (rewireLoop S k n S.level 0 S)).level ≤ _
      exact le_trans hSl (le_of_eq hRlev)
    · intro j hj1 hj2
      rw [hCf .header j]
      have hj2' : j ≤ (rewireLoop S k n S.level 0 S).level := by rw [hRlev]; exact hj2
      exact hSnone j hj1 hj2'
  · show (shrinkLoop (rewireLoop S k n S.level 0 S)).max_level = _
    rw [hSm]
    exact hRml
  · show (shrinkLoop (rewireLoop S k n S.level 0 S)).headerForward.length = _
    rw [hSh]
    exact hRhf
  · show (shrinkLoop (rewireLoop S k n S.level 0 S)).level ≤ _
    exact le_trans hSl (le_of_eq hRlev)
  · intro m
    rw [hCk m]
    exact hRkey m

theorem dropWhile_head_false {α : Type} (p : α → Bool) :
    ∀ (l : List α) (a : α) (t : List α), l.dropWhile p = a :: t → ¬ p a = true
  | [], a, t, h => by simp [List.dropWhile] at h
  | x :: xs, a, t, h => by
    rw [List.dropWhile_cons] at h
    by_cases hx : p x
    · rw [if_pos hx] at h
      exact dropWhile_head_false p xs a t h
    · rw [if_neg hx] at h
      have hxa : x = a := by injection h
      subst hxa
      exact hx

theorem chains_pairwise (S : SkipList) (L : List Nat) (hc : Chains S L) :
    L.Pairwise (fun a b => S.keyAt a ≤ S.keyAt b) := by
  have hs := hc.sorted
  unfold List.Sorted at hs
  exact List.pairwise_map.mp hs

/-- The canonical split of a chains list at key `k`: a `< k` prefix and a
`≥ k` suffix, as the descent loops of the source produce it. -/
theorem sorted_split (S : SkipList) (L : List Nat) (k : Int) (hc : Chains S L) :
    ∃ A B : List Nat, L = A ++ B ∧ (∀ a ∈ A, S.keyAt a < k) ∧
      (∀ b ∈ B, ¬ S.keyAt b < k) := by
  refine ⟨L.takeWhile (fun n => decide (S.keyAt n < k)),
          L.dropWhile (fun n => decide (S.keyAt n < k)),
          (List.takeWhile_append_dropWhile _ _).symm, ?_, ?_⟩
  · intro a ha
    have := List.mem_takeWhile_imp ha
    simpa using this
  · have hpw : (L.dropWhile (fun n => decide (S.keyAt n < k))).Pairwise
        (fun a b => S.keyAt a ≤ S.keyAt b) :=
      (chains_pairwise S L hc).sublist (List.dropWhile_sublist _)
    intro b hb
    cases hB : L.dropWhile (fun n => decide (S.keyAt n < k)) with
    | nil => rw [hB] at hb; cases hb
    | cons h0 t =>
      have hhead : ¬ S.keyAt h0 < k := by
        have := dropWhile_head_false (fun n => decide (S.keyAt n < k)) L h0 t hB
        simpa using this
      rw [hB] at hb hpw
      rcases List.mem_cons.mp hb with hb0 | hbt
      · subst hb0
        exact hhead
      · have hle := (List.pairwise_cons.mp hpw).1 b hbt
        omega

/-- If `k` occurs among the keys, the `≥ k` suffix of the canonical split
starts with a node whose key is exactly `k`. -/
theorem head_key_eq (S : SkipList) (L A B : List Nat) (k : Int) (hc : Chains S L)
    (hAB : L = A ++ B) (hA : ∀ a ∈ A, S.keyAt a < k) (hB : ∀ b ∈ B, ¬ S.keyAt b < k)
    (hmem : k ∈ L.map S.keyAt) :
    ∃ n B', B = n :: B' ∧ S.keyAt n = k := by
  rcases List.mem_map.mp hmem with ⟨m, hmL, hkm⟩
  rw [hAB] at hmL
  have hmB : m ∈ B := by
    rcases List.mem_append.mp hmL with h | h
    · exact absurd (hA m h) (by omega)
    · exact h
  cases B with
  | nil => cases hmB
  | cons n B' =>
    refine ⟨n, B', rfl, ?_⟩
    have hpwB : (n :: B').Pairwise (fun a b => S.keyAt a ≤ S.keyAt b) := by
      have hpwL := chains_pairwise S L hc
      rw [hAB] at hpwL
      exact (List.pairwise_append.mp hpwL).2.1
    rcases List.mem_cons.mp hmB with he | ht
    · subst he
      exact hkm
    · have hle := (List.pairwise_cons.mp hpwB).1 m ht
      have hn := hB n (List.mem_cons_self n B')
      omega

/-- Under the chains invariant, the fueled level-0 walk from the header
collects exactly the node list `L`. -/
theorem collect0_eq (S : SkipList) (L : List Nat) (hc : Chains S L) :
    collectChain S 0 (S.fwd .header 0) (S.arena.length + 1) = L := by
  have hch := hc.chain 0 (Nat.zero_le _)
  rw [filter_zero_height S L hc L (fun m hm => hm)] at hch
  exact chainFrom_collect S 0 L _ hch _ (by
    have := chainFrom_length_le S 0 L _ hch hc.nodup
    omega)

theorem coe_middle {α : Type} (X Y : List α) (k : α) :
    ((X ++ k :: Y : List α) : Multiset α) = k ::ₘ ((X ++ Y : List α) : Multiset α) := by
  rw [Multiset.cons_coe, Multiset.coe_eq_coe]
  exact List.perm_middle

theorem coe_erase_middle {α : Type} [DecidableEq α] (X Y : List α) (k : α) :
    ((X ++ k :: Y : List α) : Multiset α).erase k = ((X ++ Y : List α) : Multiset α) := by
  rw [coe_middle, Multiset.erase_cons_head]

/-- Full effect of one `insert` call on a well-formed state: the new node
goes between the `< k` prefix and the `≥ k` suffix of the node list, all
shape facts are preserved, and old keys are untouched. -/
theorem insert_step (S : SkipList) (L : List Nat) (k : Int) (ds : List Bool)
    (hc : Chains S L) (hlen : S.headerForward.length = S.max_level + 1)
    (hlvl : S.level ≤ S.max_level) :
    ∃ A B : List Nat, L = A ++ B ∧ (∀ a ∈ A, S.keyAt a < k) ∧
      (∀ b ∈ B, ¬ S.keyAt b < k) ∧
      Chains (S.insert k ds) (A ++ S.arena.length :: B) ∧
      (S.insert k ds).headerForward.length = S.headerForward.length ∧
      (S.insert k ds).max_level = S.max_level ∧
      (S.insert k ds).level ≤ S.max_level ∧
      (∀ m, m < S.arena.length → (S.insert k ds).keyAt m = S.keyAt m) ∧
      (S.insert k ds).keyAt S.arena.length = k := by
  obtain ⟨A, B, hAB, hA, hB⟩ := sorted_split S L k hc
  refine ⟨A, B, hAB, hA, hB, ?_, ?_, ?_, ?_, ?_, ?_⟩ <;> rw [insert_eq_spliceState]
  · exact insert_effect S L A B k _ hc hlen hlvl (random_level_le _ _) hAB hA hB
  · exact spliceState_headerForward_length S k _
  · exact spliceState_max_level S k _
  · rw [spliceState_level]
    exact max_le hlvl (random_level_le _ _)
  · intro m hm
    exact spliceState_keyAt_old S k _ m hm
  · exact spliceState_keyAt_new S k _

/-- Full effect of one `delete` call on a well-formed state: the key
multiset loses one occurrence of `k` (none if absent), the boolean result
reports whether `k` was present, and the shape facts are preserved. -/
theorem delete_step (S : SkipList) (L : List Nat) (k : Int)
    (hc : Chains S L) (hlen : S.headerForward.length = S.max_level + 1)
    (hlvl : S.level ≤ S.max_level) :
    ∃ L', Chains (S.delete k).2 L' ∧
      (S.delete k).2.headerForward.length = S.headerForward.length ∧
      (S.delete k).2.max_level = S.max_level ∧
      (S.delete k).2.level ≤ S.level ∧
      ((L'.map (S.delete k).2.keyAt : Multiset Int) =
        (L.map S.keyAt : Multiset Int).erase k) ∧
      ((S.delete k).1 = true ↔ k ∈ L.map S.keyAt) := by
  obtain ⟨A, B, hAB, hA, hB⟩ := sorted_split S L k hc
  by_cases hmem : k ∈ L.map S.keyAt
  · obtain ⟨n, B', hBe, hkey⟩ := head_key_eq S L A B k hc hAB hA hB hmem
    subst hBe
    obtain ⟨h1, h2, h3, h4, h5, h6⟩ := delete_effect S L A B' n k hc hlen hlvl hAB hA hB hkey
    refine ⟨A ++ B', h2, h4, h3, h5, ?_, Iff.intro (fun _ => hmem) (fun _ => h1)⟩
    have hmap : (A ++ B').map (S.delete k).2.keyAt = (A ++ B').map S.keyAt :=
      List.map_congr_left (fun m _ => h6 m)
    rw [hmap, List.map_append, hAB, List.map_append, List.map_cons, hkey]
    exact (coe_erase_middle (A.map S.keyAt) (B'.map S.keyAt) k).symm
  · have hmiss : ∀ n B2, B = n :: B2 → S.keyAt n ≠ k := by
      intro n B2 hBe hkn
      apply hmem
      rw [hAB, hBe, ← hkn]
      exact List.mem_map_of_mem _ (List.mem_append_right _ (List.mem_cons_self _ _))
    have hd := delete_miss S L A B k hc hlvl hAB hA hB hmiss
    refine ⟨L, ?_, ?_, ?_, ?_, ?_, ?_⟩
    · rw [hd]
      exact hc
    · rw [hd]
    · rw [hd]
    · rw [hd]
    · rw [hd]
      exact (Multiset.erase_of_not_mem (by simpa using hmem)).symm
    · rw [hd]
      simp only [Bool.false_eq_true, false_iff]
      exact hmem

/-- A skip-list API call together with the height draws its `insert`
consumes from the random generator. -/
inductive SLOp where
  | ins (key : Int) (draws : List Bool)
  | del (key : Int)

def slStep (S : SkipList) : SLOp → SkipList
  | .ins k ds => S.insert k ds
  | .del k => (S.delete k).2

/-- Run a sequence of calls against a fresh list built with `max_level = maxL`. -/
def runSkip (maxL : Nat) (ops : List SLOp) : SkipList :=
  ops.foldl slStep (SkipList.construct maxL)

/-- Spec-side key-content model of one call: `insert` adds the key,
`delete` removes one occurrence (none if absent). -/
def stepModel (M : Multiset Int) : SLOp → Multiset Int
  | .ins k _ => k ::ₘ M
  | .del k => M.erase k

def msetKeys (ops : List SLOp) : Multiset Int := ops.foldl stepModel 0

/-- Shape invariant plus key contents of a reachable state. -/
def GoodState (S : SkipList) (M : Multiset Int) : Prop :=
  S.headerForward.length = S.max_level + 1 ∧ S.level ≤ S.max_level ∧
  ∃ L, Chains S L ∧ (L.map S.keyAt : Multiset Int) = M

theorem construct_good (maxL : Nat) : GoodState (SkipList.construct maxL) 0 := by
  refine ⟨by simp [SkipList.construct], by simp [SkipList.construct], [], ?_, rfl⟩
  refine ⟨?_, ?_, ?_, ?_, ?_, ?_, ?_⟩
  · intro n hn
    cases hn
  · exact List.nodup_nil
  · rfl
  · exact List.sorted_nil
  · intro n hn
    cases hn
  · intro n hn
    cases hn
  · intro i hi
    show (SkipList.construct maxL).fwd .header i = none
    show (List.replicate (maxL + 1) (none : Option Nat)).getD i none = none
    rw [List.getD_eq_getElem?_getD, List.getElem?_replicate]
    split <;> rfl

theorem slStep_good (S : SkipList) (M : Multiset Int) (op : SLOp) (h : GoodState S M) :
    GoodState (slStep S op) (stepModel M op) ∧ (slStep S op).max_level = S.max_level := by
  obtain ⟨hlen, hlvl, L, hc, hM⟩ := h
  cases op with
  | ins k ds =>
    obtain ⟨A, B, hAB, hA, hB, hc', hlen', hml', hlvl', hold, hnew⟩ :=
      insert_step S L k ds hc hlen hlvl
    refine ⟨⟨?_, ?_, A ++ S.arena.length :: B, hc', ?_⟩, hml'⟩
    · show (S.insert k ds).headerForward.length = (S.insert k ds).max_level + 1
      rw [hlen', hml', hlen]
    · show (S.insert k ds).level ≤ (S.insert k ds).max_level
      rw [hml']
      exact hlvl'
    · show ((A ++ S.arena.length :: B).map (S.insert k ds).keyAt : Multiset Int) = k ::ₘ M
      rw [← hM]
      have hmapA : A.map (S.insert k ds).keyAt = A.map S.keyAt :=
        List.map_congr_left (fun a ha => hold a (hc.bound a
          (by rw [hAB]; exact List.mem_append_left _ ha)))
      have hmapB : B.map (S.insert k ds).keyAt = B.map S.keyAt :=
        List.map_congr_left (fun b hb => hold b (hc.bound b
          (by rw [hAB]; exact List.mem_append_right _ hb)))
      rw [List.map_append, List.map_cons, hmapA, hmapB, hnew, hAB, List.map_append]
      exact coe_middle _ _ k
  | del k =>
    obtain ⟨L', hc', hlen', hml', hlvl', hkeys, _⟩ := delete_step S L k hc hlen hlvl
    refine ⟨⟨?_, ?_, L', hc', ?_⟩, hml'⟩
    · show (S.delete k).2.headerForward.length = (S.delete k).2.max_level + 1
      rw [hlen', hml', hlen]
    · show (S.delete k).2.level ≤ (S.delete k).2.max_level
      rw [hml']
      exact le_trans hlvl' hlvl
    · show (L'.map (S.delete k).2.keyAt : Multiset Int) = M.erase k
      rw [← hM]
      exact hkeys

theorem foldl_good : ∀ (ops : List SLOp) (S : SkipList) (M : Multiset Int),
    GoodState S M →
    GoodState (ops.foldl slStep S) (ops.foldl stepModel M) ∧
      (ops.foldl slStep S).max_level = S.max_level
  | [], _, _, h => ⟨h, rfl⟩
  | op :: ops, S, M, h => by
    obtain ⟨h1, h2⟩ := slStep_good S M op h
    obtain ⟨h3, h4⟩ := foldl_good ops (slStep S op) (stepModel M op) h1
    refine ⟨h3, ?_⟩
    show (ops.foldl slStep (slStep S op)).max_level = S.max_level
    rw [h4, h2]

/-- Every state reachable from a fresh list satisfies the shape invariant
and carries exactly the modelled key multiset. -/
theorem runSkip_good (maxL : Nat) (ops : List SLOp) :
    GoodState (runSkip maxL ops) (msetKeys ops) ∧ (runSkip maxL ops).max_level = maxL :=
  foldl_good ops (SkipList.construct maxL) 0 (construct_good maxL)

/-- C5: in every state reachable by any sequence of `insert` and `delete`
calls, under every possible sequence of random height draws, walking the
level-0 forward chain from the header yields keys in non-decreasing order,
and the number of nodes walked equals the structure's `size` field. -/
theorem skiplist_sorted_size (maxL : Nat) (ops : List SLOp) :
    ((collectChain (runSkip maxL ops) 0 ((runSkip maxL ops).fwd .header 0)
        ((runSkip maxL ops).arena.length + 1)).map (runSkip maxL ops).keyAt).Sorted (· ≤ ·) ∧
    (collectChain (runSkip maxL ops) 0 ((runSkip maxL ops).fwd .header 0)
        ((runSkip maxL ops).arena.length + 1)).length = (runSkip maxL ops).size := by
  obtain ⟨⟨hlen, hlvl, L, hc, hM⟩, hml⟩ := runSkip_good maxL ops
  rw [collect0_eq _ L hc]
  exact ⟨hc.sorted, hc.len⟩

/-- C10: in every reachable state the active level is between 0 and
`max_level`, and every header forward pointer strictly above the active
level (up to `max_level`) is `None`. -/
theorem skiplist_level_inv (maxL : Nat) (ops : List SLOp) :
    (runSkip maxL ops).level ≤ (runSkip maxL ops).max_level ∧
    (∀ i, (runSkip maxL ops).level < i → i ≤ (runSkip maxL ops).max_level →
      (runSkip maxL ops).fwd .header i = none) := by
  obtain ⟨⟨hlen, hlvl, L, hc, hM⟩, hml⟩ := runSkip_good maxL ops
  refine ⟨hlvl, ?_⟩
  intro i hi1 hi2
  have hch := hc.chain i hi2
  have hfil : L.filter (fun n => decide (i < (runSkip maxL ops).heightAt n)) = [] := by
    rw [List.filter_eq_nil]
    intro n hn
    have := hc.hle n hn
    simp only [decide_eq_true_eq]
    omega
  rw [hfil] at hch
  exact hch

/-- Witness: in the fresh list with `max_level = 3`, level 1 is above the
active level 0 and its header pointer is `None`. -/
theorem skiplist_level_inv_witness :
    (runSkip 3 []).level < 1 ∧ 1 ≤ (runSkip 3 []).max_level ∧
      (runSkip 3 []).fwd .header 1 = none :=
  ⟨by decide, by decide, (skiplist_level_inv 3 []).2 1 (by decide) (by decide)⟩

/-- C2 counterexample: inserting key 5 twice (with empty height draws)
into a fresh list with `max_level = 2` leaves the level-0 chain visiting
the second-inserted node (arena index 1) strictly before the
first-inserted node (arena index 0), both carrying key 5 — the new
equal-key node is placed before, not after, the existing one, so equal
keys appear in reverse insertion order along level 0. -/
theorem skiplist_duplicate_order_cex :
    (((SkipList.construct 2).insert 5 []).insert 5 []).fwd .header 0 = some 1 ∧
    (((SkipList.construct 2).insert 5 []).insert 5 []).fwd (.node 1) 0 = some 0 ∧
    (((SkipList.construct 2).insert 5 []).insert 5 []).fwd (.node 0) 0 = none ∧
    (((SkipList.construct 2).insert 5 []).insert 5 []).keyAt 0 = 5 ∧
    (((SkipList.construct 2).insert 5 []).insert 5 []).keyAt 1 = 5 := by
  decide

/-- C2 (amended): in every reachable state, `insert(k)` splices the new
node into level 0 exactly between the strictly-smaller keys and the keys
`≥ k`; since existing nodes with key equal to `k` fall in the second part,
the new node lands immediately before the existing equal keys, and equal
keys appear in reverse insertion order along level 0. -/
theorem skiplist_duplicate_order (maxL : Nat) (ops : List SLOp) (k : Int) (ds : List Bool) :
    ∃ A B : List Nat,
      collectChain (runSkip maxL ops) 0 ((runSkip maxL ops).fwd .header 0)
        ((runSkip maxL ops).arena.length + 1) = A ++ B ∧
      collectChain ((runSkip maxL ops).insert k ds) 0
          (((runSkip maxL ops).insert k ds).fwd .header 0)
          (((runSkip maxL ops).insert k ds).arena.length + 1)
        = A ++ (runSkip maxL ops).arena.length :: B ∧
      (∀ a ∈ A, ((runSkip maxL ops).insert k ds).keyAt a = (runSkip maxL ops).keyAt a ∧
        (runSkip maxL ops).keyAt a < k) ∧
      (∀ b ∈ B, ((runSkip maxL ops).insert k ds).keyAt b = (runSkip maxL ops).keyAt b ∧
        ¬ (runSkip maxL ops).keyAt b < k) ∧
      ((runSkip maxL ops).insert k ds).keyAt (runSkip maxL ops).arena.length = k := by
  obtain ⟨⟨hlen, hlvl, L, hc, hM⟩, hml⟩ := runSkip_good maxL ops
  obtain ⟨A, B, hAB, hA, hB, hc', hlen', hml', hlvl', hold, hnew⟩ :=
    insert_step (runSkip maxL ops) L k ds hc hlen hlvl
  refine ⟨A, B, ?_, ?_, ?_, ?_, hnew⟩
  · rw [collect0_eq _ L hc, hAB]
  · rw [collect0_eq _ (A ++ (runSkip maxL ops).arena.length :: B) hc']
  · intro a ha
    exact ⟨hold a (hc.bound a (by rw [hAB]; exact List.mem_append_left _ ha)), hA a ha⟩
  · intro b hb
    exact ⟨hold b (hc.bound b (by rw [hAB]; exact List.mem_append_right _ hb)), hB b hb⟩

/-- The call trace of the skip-list demo scenario: insert the keys
`[3, 6, 7, 9, 12, 19, 17, 26, 21, 25]`, with arbitrary height draws for
each insert. -/
def c8ops (d1 d2 d3 d4 d5 d6 d7 d8 d9 d10 : List Bool) : List SLOp :=
  [.ins 3 d1, .ins 6 d2, .ins 7 d3, .ins 9 d4, .ins 12 d5,
   .ins 19 d6, .ins 17 d7, .ins 26 d8, .ins 21 d9, .ins 25 d10]

/-- C8: for every possible sequence of random height draws, after
inserting the keys `[3, 6, 7, 9, 12, 19, 17, 26, 21, 25]` into a fresh
list (`max_level = 16`), `search(12)` is true and `search(100)` is false;
`delete(7)` returns true, after which `search(7)` is false and `size` is
9; and `delete(100)` returns false. -/
theorem skiplist_concrete (d1 d2 d3 d4 d5 d6 d7 d8 d9 d10 : List Bool) :
    (runSkip 16 (c8ops d1 d2 d3 d4 d5 d6 d7 d8 d9 d10)).search 12 = true ∧
    (runSkip 16 (c8ops d1 d2 d3 d4 d5 d6 d7 d8 d9 d10)).search 100 = false ∧
    ((runSkip 16 (c8ops d1 d2 d3 d4 d5 d6 d7 d8 d9 d10)).delete 7).1 = true ∧
    ((runSkip 16 (c8ops d1 d2 d3 d4 d5 d6 d7 d8 d9 d10)).delete 7).2.search 7 = false ∧
    ((runSkip 16 (c8ops d1 d2 d3 d4 d5 d6 d7 d8 d9 d10)).delete 7).2.size = 9 ∧
    ((runSkip 16 (c8ops d1 d2 d3 d4 d5 d6 d7 d8 d9 d10)).delete 100).1 = false := by
  obtain ⟨⟨hlen, hlvl, L, hc, hM⟩, hml⟩ :=
    runSkip_good 16 (c8ops d1 d2 d3 d4 d5 d6 d7 d8 d9 d10)
  set S := runSkip 16 (c8ops d1 d2 d3 d4 d5 d6 d7 d8 d9 d10) with hS
  have hM' : (L.map S.keyAt : Multiset Int) =
      25 ::ₘ 21 ::ₘ 26 ::ₘ 17 ::ₘ 19 ::ₘ 12 ::ₘ 9 ::ₘ 7 ::ₘ 6 ::ₘ 3 ::ₘ 0 := hM
  have h12 : (12 : Int) ∈ L.map S.keyAt := by
    have : (12 : Int) ∈ (↑(L.map S.keyAt) : Multiset Int) := by
      rw [hM']
      decide
    simpa using this
  have h7 : (7 : Int) ∈ L.map S.keyAt := by
    have : (7 : Int) ∈ (↑(L.map S.keyAt) : Multiset Int) := by
      rw [hM']
      decide
    simpa using this
  have h100 : (100 : Int) ∉ L.map S.keyAt := by
    intro hmem
    have : (100 : Int) ∈ (↑(L.map S.keyAt) : Multiset Int) := by simpa using hmem
    rw [hM'] at this
    exact absurd this (by decide)
  obtain ⟨A1, B1, hAB1, hA1, hB1⟩ := sorted_split S L 12 hc
  have hs12 : S.search 12 = true := (search_spec S L A1 B1 12 hc hlvl hAB1 hA1 hB1).mpr h12
  obtain ⟨A2, B2, hAB2, hA2, hB2⟩ := sorted_split S L 100 hc
  have hs100 : S.search 100 = false := by
    have hiff := search_spec S L A2 B2 100 hc hlvl hAB2 hA2 hB2
    cases hcase : S.search 100
    · rfl
    · exact absurd (hiff.mp hcase) h100
  obtain ⟨L7, hc7, hlen7, hml7, hlvl7, hkeys7, hbit7⟩ := delete_step S L 7 hc hlen hlvl
  have hd7 : (S.delete 7).1 = true := hbit7.mpr h7
  have hlvl7' : (S.delete 7).2.level ≤ (S.delete 7).2.max_level := by
    rw [hml7]
    exact le_trans hlvl7 hlvl
  have h7' : (7 : Int) ∉ L7.map (S.delete 7).2.keyAt := by
    intro hmem
    have : (7 : Int) ∈ (↑(L7.map (S.delete 7).2.keyAt) : Multiset Int) := by simpa using hmem
    rw [hkeys7, hM'] at this
    exact absurd this (by decide)
  obtain ⟨A3, B3, hAB3, hA3, hB3⟩ := sorted_split (S.delete 7).2 L7 7 hc7
  have hs7 : (S.delete 7).2.search 7 = false := by
    have hiff := search_spec (S.delete 7).2 L7 A3 B3 7 hc7 hlvl7' hAB3 hA3 hB3
    cases hcase : (S.delete 7).2.search 7
    · rfl
    · exact absurd (hiff.mp hcase) h7'
  have hsz : (S.delete 7).2.size = 9 := by
    have hcard : (L7.map (S.delete 7).2.keyAt).length = 9 := by
      have hcm : Multiset.card (↑(L7.map (S.delete 7).2.keyAt) : Multiset Int) = 9 := by
        rw [hkeys7, hM']
        decide
      simpa using hcm
    rw [List.length_map] at hcard
    have hln := hc7.len
    omega
  have hd100 : (S.delete 100).1 = false := by
    obtain ⟨L4, hc4, hx1, hx2, hx3, hx4, hbit4⟩ := delete_step S L 100 hc hlen hlvl
    cases hcase : (S.delete 100).1
    · rfl
    · exact absurd (hbit4.mp hcase) h100
  exact ⟨hs12, hs100, hd7, hs7, hsz, hd100⟩
